import Mathlib

/-!
Shallow embedding of the diagram editor's core logic (history manager,
viewport/pinch zoom, connector routing, auto-sizing, node operations and
mind-map branch coloring), translated from `src/App.tsx`,
`src/components/Flowchart.tsx` and `src/types.ts`.  Numbers are modelled
as exact rationals.
-/

namespace AiMaker

/-- `types.ts` interface `Position`. -/
structure Position where
  x : ℚ
  y : ℚ
  deriving DecidableEq

/-- `types.ts` interface `Size`. -/
structure Size where
  w : ℚ
  h : ℚ
  deriving DecidableEq

/-- The `canvas` field of `FlowchartData` in `types.ts`. -/
structure Canvas where
  width : ℚ
  height : ℚ
  deriving DecidableEq

/-- `types.ts` enum `DiagramType`. -/
inductive DiagramType where
  | FLOWCHART
  | MINDMAP
  deriving DecidableEq

/-- `types.ts` interface `Node`. -/
structure Node where
  id : String
  type : String
  title : String
  description : String
  icon : String
  imageUrl : Option String
  position : Position
  size : Size
  loop : Option String
  sideBox : Option String
  deriving DecidableEq

/-- The optional `style` field of a connector (`types.ts`). -/
structure ConnectorStyle where
  strokeDasharray : Option String
  strokeWidth : Option ℚ
  deriving DecidableEq

/-- `types.ts` interface `Connector`; the source fields `from`/`to` are
named `fromId`/`toId` here because `from` is a Lean keyword. -/
structure Connector where
  id : String
  fromId : String
  toId : String
  type : String
  style : Option ConnectorStyle
  deriving DecidableEq

/-- `types.ts` interface `SideBox`. -/
structure SideBox where
  id : String
  text : String
  attachToNode : String
  position : String
  size : Size
  lineStyle : String
  deriving DecidableEq

/-- `types.ts` interface `SupportingPanelItem`. -/
structure SupportingPanelItem where
  id : String
  title : String
  description : String
  icon : String
  connectsToNode : Option String
  color : Option String
  deriving DecidableEq

/-- `types.ts` interface `SupportingPanel`. -/
structure SupportingPanel where
  title : String
  position : Position
  size : Size
  items : List SupportingPanelItem
  deriving DecidableEq

/-- `types.ts` interface `FlowchartData`.  The `diagramType` field is not
declared in `types.ts` but is injected by `geminiService.ts`
(`data.diagramType = type`) and read by `App.tsx`, so it is modelled as an
optional field. -/
structure FlowchartData where
  title : String
  caption : String
  headerImage : Option String
  canvas : Canvas
  nodes : List Node
  connectors : List Connector
  sideBoxes : Option (List SideBox)
  supportingPanel : Option SupportingPanel
  diagramType : Option DiagramType
  deriving DecidableEq

/-- The relevant `App.tsx` component state: the current diagram, the
undo/redo history and the viewport. -/
structure AppState where
  flowchartData : Option FlowchartData
  history : List FlowchartData
  historyIndex : Nat
  zoom : ℚ
  pan : Position
  deriving DecidableEq

/-- `App.tsx` `pushToHistory`: truncate the history after the current
index, append the new diagram, advance the index and expose the new
diagram as current. -/
def pushToHistory (s : AppState) (newData : FlowchartData) : AppState :=
  { s with
    history := s.history.take (s.historyIndex + 1) ++ [newData]
    historyIndex := s.historyIndex + 1
    flowchartData := some newData }

/-- `App.tsx` `handleUndo`. -/
def handleUndo (s : AppState) : AppState :=
  if 0 < s.historyIndex then
    { s with
      historyIndex := s.historyIndex - 1
      flowchartData := s.history[s.historyIndex - 1]? }
  else s

/-- `App.tsx` `handleRedo`. -/
def handleRedo (s : AppState) : AppState :=
  if s.historyIndex < s.history.length - 1 then
    { s with
      historyIndex := s.historyIndex + 1
      flowchartData := s.history[s.historyIndex + 1]? }
  else s

/-- The zoom-in button in `App.tsx`: `setZoom(z => Math.min(z + 0.1, 3))`. -/
def zoomInButton (z : ℚ) : ℚ := min (z + 0.1) 3

/-- The zoom-out button in `App.tsx`: `setZoom(z => Math.max(z - 0.1, 0.2))`. -/
def zoomOutButton (z : ℚ) : ℚ := max (z - 0.1) 0.2

/-- The reset-zoom button in `App.tsx`: `setZoom(1)`. -/
def zoomResetButton : ℚ := 1

/-- `setZoom` in `App.tsx` is the raw `useState` setter
(`const [zoom, setZoom] = useState(1)`): it replaces the zoom state with
its argument without any clamping. -/
def setZoom (v : ℚ) : ℚ := v

/-- The state recorded by `handleTouchStart` in `Flowchart.tsx` when a
two-finger pinch begins: initial inter-touch distance, zoom, pan, and the
focal screen point (midpoint of the touches relative to the container). -/
structure PinchStart where
  startDist : ℚ
  startZoom : ℚ
  startPan : Position
  center : Position
  deriving DecidableEq

/-- `handleTouchMove` in `Flowchart.tsx` (two-touch branch): if both the
recorded start distance and the current distance are positive, compute the
scale, clamp the new zoom to `[0.2, 3]` and recompute the pan around the
focal point; otherwise no update fires. -/
def handleTouchMove (ps : PinchStart) (dist : ℚ) : Option (ℚ × Position) :=
  if 0 < ps.startDist ∧ 0 < dist then
    let scale := dist / ps.startDist
    let newZoom := max 0.2 (min 3 (ps.startZoom * scale))
    some (newZoom,
      { x := ps.startPan.x + ps.center.x * (1 / newZoom - 1 / ps.startZoom)
        y := ps.startPan.y + ps.center.y * (1 / newZoom - 1 / ps.startZoom) })
  else
    none

/-- The clamp applied to the pinch zoom in `handleTouchMove`:
`Math.max(0.2, Math.min(3, z))`. -/
def clampZoom (z : ℚ) : ℚ := max 0.2 (min 3 z)

/-- The geometry of a rendered connector path in `Flowchart.tsx`: a
straight line between centers (mind-map mode), the loop-back cubic (first
flowchart branch) or the normal downward cubic (second flowchart branch).
Arguments are start point, the two cubic control points, and end point. -/
inductive ConnRoute where
  | straight (x1 y1 x2 y2 : ℚ)
  | loopBack (sx sy c1x c1y c2x c2y ex ey : ℚ)
  | normal (sx sy c1x c1y c2x c2y ex ey : ℚ)
  deriving DecidableEq

/-- The connector path selection in `Flowchart.tsx` (the `d` computation
inside `data.connectors.map`). -/
def connectorRoute (diagramType : DiagramType) (fromNode toNode : Node) : ConnRoute :=
  if diagramType = DiagramType.MINDMAP then
    ConnRoute.straight
      (fromNode.position.x + fromNode.size.w / 2) (fromNode.position.y + fromNode.size.h / 2)
      (toNode.position.x + toNode.size.w / 2) (toNode.position.y + toNode.size.h / 2)
  else if fromNode.position.y > toNode.position.y + 50 then
    ConnRoute.loopBack
      (fromNode.position.x + fromNode.size.w) (fromNode.position.y + fromNode.size.h / 2)
      (fromNode.position.x + fromNode.size.w + 100) (fromNode.position.y + fromNode.size.h / 2)
      (toNode.position.x + toNode.size.w + 100) (toNode.position.y + toNode.size.h / 2)
      (toNode.position.x + toNode.size.w) (toNode.position.y + toNode.size.h / 2)
  else
    ConnRoute.normal
      (fromNode.position.x + fromNode.size.w / 2) (fromNode.position.y + fromNode.size.h)
      (fromNode.position.x + fromNode.size.w / 2) (fromNode.position.y + fromNode.size.h + 60)
      (toNode.position.x + toNode.size.w / 2) (toNode.position.y - 60)
      (toNode.position.x + toNode.size.w / 2) (toNode.position.y)

/-- The connector stroke width in `Flowchart.tsx`:
`conn.style?.strokeWidth || (mindmap ? 3 : 2)`.  JavaScript `||` falls
back on `0` as well as on a missing override. -/
def connectorStrokeWidth (diagramType : DiagramType) (style : Option ConnectorStyle) : ℚ :=
  let fallback : ℚ := if diagramType = DiagramType.MINDMAP then 3 else 2
  match style with
  | none => fallback
  | some st =>
    match st.strokeWidth with
    | none => fallback
    | some w => if w = 0 then fallback else w

/-- The auto-resize height computation in `DraggableNode`
(`Flowchart.tsx`): `Math.max(86, contentHeight + 40)`. -/
def autoNewHeight (contentHeight : ℚ) : ℚ := max 86 (contentHeight + 40)

/-- The auto-resize effect in `DraggableNode`: the new size is committed
via `onSizeChange` only when the recomputed height differs from the
current height by more than 5; otherwise nothing is emitted. -/
def autoResizeUpdate (contentHeight : ℚ) (node : Node) : Option Size :=
  if 5 < |autoNewHeight contentHeight - node.size.h| then
    some { w := node.size.w, h := autoNewHeight contentHeight }
  else none

/-- `App.tsx` `handleNodeSizeChange`: replace the matching node's size in
the current diagram; the history is not touched. -/
def handleNodeSizeChange (s : AppState) (nodeId : String) (newSize : Size) : AppState :=
  match s.flowchartData with
  | none => { s with flowchartData := none }
  | some prev =>
    { s with flowchartData := some { prev with
        nodes := prev.nodes.map fun n => if n.id = nodeId then { n with size := newSize } else n } }

/-- `App.tsx` `handleDeleteNode` (for the currently edited node id):
filter out the node, every connector touching it and every side box
attached to it, then commit via `pushToHistory`. -/
def handleDeleteNode (s : AppState) (editingNodeId : String) : AppState :=
  match s.flowchartData with
  | none => s
  | some data =>
    pushToHistory s { data with
      nodes := data.nodes.filter fun n => decide (n.id ≠ editingNodeId)
      connectors := data.connectors.filter fun c =>
        decide (c.fromId ≠ editingNodeId ∧ c.toId ≠ editingNodeId)
      sideBoxes := some ((data.sideBoxes.getD []).filter fun b =>
        decide (b.attachToNode ≠ editingNodeId)) }

/-- The new-nodes computation of `App.tsx` `handleNodePositionChange`:
in mind-map mode a node with no incoming connector drags the whole
diagram rigidly; otherwise only the matching node moves. -/
def nodePositionChangeData (appDiagramType : DiagramType) (data : FlowchartData)
    (nodeId : String) (newPosition : Position) : FlowchartData :=
  let isMindMap := data.diagramType = some DiagramType.MINDMAP ∨ appDiagramType = DiagramType.MINDMAP
  if isMindMap ∧ ¬ data.connectors.any (fun c => decide (c.toId = nodeId)) then
    match data.nodes.find? (fun n => decide (n.id = nodeId)) with
    | some draggingNode =>
      let dx := newPosition.x - draggingNode.position.x
      let dy := newPosition.y - draggingNode.position.y
      { data with nodes := data.nodes.map fun n =>
          { n with position := { x := n.position.x + dx, y := n.position.y + dy } } }
    | none => data
  else
    { data with nodes := data.nodes.map fun n =>
        if n.id = nodeId then { n with position := newPosition } else n }

/-- `App.tsx` `handleNodePositionChange` at the state level: compute the
new diagram and either commit it to history or apply it as a live update. -/
def handleNodePositionChange (appDiagramType : DiagramType) (s : AppState)
    (nodeId : String) (newPosition : Position) (commit : Bool) : AppState :=
  match s.flowchartData with
  | none => s
  | some data =>
    let newData := nodePositionChangeData appDiagramType data nodeId newPosition
    if commit then pushToHistory s newData
    else { s with flowchartData := some newData }

/-- `nodes.find(n => n.id === id)` as used throughout `Flowchart.tsx` and
`App.tsx`. -/
def findNode (nodes : List Node) (nodeId : String) : Option Node :=
  nodes.find? fun n => decide (n.id = nodeId)

/-- Squared Euclidean distance from a node's center to the point
`(cx, cy)`; the root search in `nodeColorMap` compares
`Math.hypot(...)` values, and comparison of the (nonnegative) distances
is equivalent to comparison of their squares. -/
def dist2 (cx cy : ℚ) (n : Node) : ℚ :=
  ((n.position.x + n.size.w / 2) - cx) ^ 2 + ((n.position.y + n.size.h / 2) - cy) ^ 2

/-- The `forEach` scan in `nodeColorMap` that keeps the node with the
strictly smallest distance seen so far. -/
def rootScan (cx cy : ℚ) : Node → ℚ → List Node → Node
  | best, _, [] => best
  | best, bestD, n :: rest =>
    if dist2 cx cy n < bestD then rootScan cx cy n (dist2 cx cy n) rest
    else rootScan cx cy best bestD rest

/-- Root selection in `nodeColorMap` (`Flowchart.tsx`): start from
`data.nodes[0]` with `minDist = Infinity` and scan every node, keeping a
strictly closer node.  Since the first comparison against `Infinity`
always succeeds, this equals scanning the tail with the head as the
initial best.  Empty node list: `data.nodes[0]` is `undefined` and the
subsequent `.id` access fails, modelled as `none`. -/
def findRoot (cx cy : ℚ) : List Node → Option Node
  | [] => none
  | n0 :: rest => some (rootScan cx cy n0 (dist2 cx cy n0) rest)

/-- Level-1 collection in `nodeColorMap`: for each connector in array
order, a connector out of the root contributes its resolved target, and
otherwise a connector into the root contributes its resolved source. -/
def level1Nodes (nodes : List Node) (rootId : String) : List Connector → List Node
  | [] => []
  | c :: cs =>
    if c.fromId = rootId then
      (match findNode nodes c.toId with
       | some t => [t]
       | none => []) ++ level1Nodes nodes rootId cs
    else if c.toId = rootId then
      (match findNode nodes c.fromId with
       | some s => [s]
       | none => []) ++ level1Nodes nodes rootId cs
    else
      level1Nodes nodes rootId cs

/-- The `colors` record of `nodeColorMap`, modelled as a lookup
function. -/
abbrev ColorMap := String → Option String

/-- `colors[k] = v`. -/
def setColor (m : ColorMap) (k : String) (v : Option String) : ColorMap :=
  fun q => if q = k then v else m q

/-- Step 3 of `nodeColorMap`: assign `PALETTE[idx % PALETTE.length]` to
each level-1 node in order and mark it processed. -/
def MIND_MAP_PALETTE : List String :=
  ["#ef4444", "#f97316", "#f59e0b", "#84cc16", "#10b981",
   "#06b6d4", "#3b82f6", "#8b5cf6", "#d946ef", "#f43f5e"]

/-- The `level1Nodes.forEach((node, idx) => ...)` loop of
`nodeColorMap`. -/
def assignPalette : ColorMap → List String → Nat → List Node → ColorMap × List String
  | colors, processed, _, [] => (colors, processed)
  | colors, processed, idx, n :: rest =>
    assignPalette
      (setColor colors n.id
        (some (MIND_MAP_PALETTE.getD (idx % MIND_MAP_PALETTE.length) "")))
      (n.id :: processed) (idx + 1) rest

/-- The `childId` computation inside the BFS of `nodeColorMap`: two
consecutive `if`s (not `else if`), so the to-side match wins when both
fire. -/
def childOf (processed : List String) (parentId : String) (c : Connector) : Option String :=
  let fromSide : Option String :=
    if c.fromId = parentId ∧ c.toId ∉ processed then some c.toId else none
  if c.toId = parentId ∧ c.fromId ∉ processed then some c.fromId else fromSide

/-- The mutable state of the BFS in `nodeColorMap`. -/
structure BfsState where
  colors : ColorMap
  processed : List String
  queue : List Node

/-- The `data.connectors.forEach` body inside the BFS loop of
`nodeColorMap`: each connector linking the dequeued parent to an
unprocessed, resolvable node colors that node with the parent's color,
marks it processed and enqueues it. -/
def processConns (nodes : List Node) (parentId : String) (parentColor : Option String) :
    BfsState → List Connector → BfsState
  | st, [] => st
  | st, c :: cs =>
    match childOf st.processed parentId c with
    | none => processConns nodes parentId parentColor st cs
    | some childId =>
      match findNode nodes childId with
      | none => processConns nodes parentId parentColor st cs
      | some child =>
        processConns nodes parentId parentColor
          { colors := setColor st.colors childId parentColor
            processed := childId :: st.processed
            queue := st.queue ++ [child] } cs

/-- The `while (queue.length > 0)` loop of `nodeColorMap`, with explicit
fuel.  The whole final state is returned so that genuine termination (the
queue emptied before the fuel ran out) stays observable; the fuel chosen
in `nodeColorMapRun` is proved sufficient below. -/
def bfsLoop (nodes : List Node) (connectors : List Connector) :
    Nat → BfsState → BfsState
  | 0, st => st
  | fuel + 1, st =>
    match st.queue with
    | [] => st
    | parent :: rest =>
      bfsLoop nodes connectors fuel
        (processConns nodes parent.id (st.colors parent.id)
          { st with queue := rest } connectors)

/-- The whole `nodeColorMap` computation for a given root: collect the
level-1 nodes, assign palette colors, then run the BFS. -/
def nodeColorMapRun (data : FlowchartData) (root : Node) : BfsState :=
  let l1 := level1Nodes data.nodes root.id data.connectors
  let ap := assignPalette (fun _ => none) [root.id] 0 l1
  bfsLoop data.nodes data.connectors (l1.length + data.nodes.length)
    { colors := ap.1, processed := ap.2, queue := l1 }

/-- `nodeColorMap` in `Flowchart.tsx`: `{}` outside mind-map mode; for an
empty node list the root access `data.nodes[0].id` fails (modelled as
`none`); otherwise the color map computed from the selected root. -/
def nodeColorMap (diagramType : DiagramType) (data : FlowchartData) : Option ColorMap :=
  if diagramType ≠ DiagramType.MINDMAP then some (fun _ => none)
  else
    match findRoot (data.canvas.width / 2) (data.canvas.height / 2) data.nodes with
    | none => none
    | some root => some (nodeColorMapRun data root).colors

/-- Two ids are joined by some connector of the list, in either
direction. -/
def AdjVia (connectors : List Connector) (a b : String) : Prop :=
  ∃ c ∈ connectors, (c.fromId = a ∧ c.toId = b) ∨ (c.toId = a ∧ c.fromId = b)

/-- An id that resolves to a node of the list. -/
def Resolvable (nodes : List Node) (b : String) : Prop :=
  ∃ n ∈ nodes, n.id = b

/-- One BFS step: adjacency whose target resolves to a node. -/
def StepRel (connectors : List Connector) (nodes : List Node) (a b : String) : Prop :=
  AdjVia connectors a b ∧ Resolvable nodes b

/-- Reachability along connectors (through existing nodes). -/
def Reaches (connectors : List Connector) (nodes : List Node) (a b : String) : Prop :=
  Relation.ReflTransGen (StepRel connectors nodes) a b

/-- The number of distinct node ids not yet processed: the decreasing
part of the BFS termination measure. -/
def unproc (nodes : List Node) (processed : List String) : Nat :=
  ((nodes.map Node.id).toFinset.filter (fun a => a ∉ processed)).card

/-- The BFS loop invariant for `nodeColorMap`, relative to a root id and
the list of level-1 ids: every queued node is processed; the root is
processed, never queued, and uncolored; every processed non-root id is
colored; every processed id no longer in the queue has all its resolvable
neighbors processed; colored ids are processed; every colored id is a
level-1 id or shares its color with a processed neighbor; and every
processed id is reachable from the root. -/
def BfsInv (connectors : List Connector) (nodes : List Node) (rootId : String)
    (l1ids : List String) (st : BfsState) : Prop :=
  (∀ n ∈ st.queue, n.id ∈ st.processed) ∧
  rootId ∈ st.processed ∧
  (∀ n ∈ st.queue, n.id ≠ rootId) ∧
  st.colors rootId = none ∧
  (∀ k ∈ st.processed, k ≠ rootId → st.colors k ≠ none) ∧
  (∀ k ∈ st.processed, (∀ n ∈ st.queue, n.id ≠ k) →
    ∀ x, AdjVia connectors k x → Resolvable nodes x → x ∈ st.processed) ∧
  (∀ k, st.colors k ≠ none → k ∈ st.processed) ∧
  (∀ k, st.colors k ≠ none → k ∈ l1ids ∨
    ∃ j, AdjVia connectors j k ∧ st.colors j = st.colors k ∧ j ∈ st.processed) ∧
  (∀ k ∈ st.processed, Reaches connectors nodes rootId k)


/-- The root described by the spec: the first node (in node order) whose
center attains the minimum distance to the canvas center, i.e. the
closest node with ties broken by first occurrence.  Used to compare the
code's `findRoot` against the spec's description. -/
def specRoot (cx cy : ℚ) (nodes : List Node) : Option Node :=
  nodes.find? fun n => decide (∀ m ∈ nodes, dist2 cx cy n ≤ dist2 cx cy m)

/-- The loop-back condition as the spec states it: the target's top is
above the source's bottom by more than 50 units.  Used to compare against
the code's condition `fromNode.position.y > toNode.position.y + 50`. -/
def specLoopBackCond (fromNode toNode : Node) : Prop :=
  (fromNode.position.y + fromNode.size.h) - toNode.position.y > 50

/-- Boolean adjacency test: some connector of the list joins the node to
the given id, in either direction (the executable form of `AdjVia`). -/
def adjB (connectors : List Connector) (n : Node) (k : String) : Bool :=
  connectors.any fun c =>
    (c.fromId == n.id && c.toId == k) || (c.toId == n.id && c.fromId == k)

/-- `bfsLoop` instrumented with the dequeue order: the same loop, also
carrying the list of parents dequeued so far.  Its state component
coincides with `bfsLoop` (proved below); the second component records the
order in which the `while` loop of `nodeColorMap` visits the parents,
which is what "first reached by the BFS" refers to. -/
def bfsLoopSeen (nodes : List Node) (connectors : List Connector) :
    Nat → BfsState → List Node → BfsState × List Node
  | 0, st, seen => (st, seen)
  | fuel + 1, st, seen =>
    match st.queue with
    | [] => (st, seen)
    | parent :: rest =>
      bfsLoopSeen nodes connectors fuel
        (processConns nodes parent.id (st.colors parent.id)
          { st with queue := rest } connectors)
        (seen ++ [parent])

/-- The `nodeColorMapRun` computation together with its BFS dequeue
order. -/
def nodeColorMapSeen (data : FlowchartData) (root : Node) : BfsState × List Node :=
  let l1 := level1Nodes data.nodes root.id data.connectors
  let ap := assignPalette (fun _ => none) [root.id] 0 l1
  bfsLoopSeen data.nodes data.connectors (l1.length + data.nodes.length)
    { colors := ap.1, processed := ap.2, queue := l1 } []

/-- The dequeue-order invariant of the instrumented BFS: every dequeued
parent is processed; every resolvable neighbor of a dequeued parent is
processed; and every colored id is a level-1 id or carries exactly the
color of the first dequeued parent adjacent to it — the parent from
which the BFS first reached it. -/
def OrdInv (connectors : List Connector) (nodes : List Node)
    (l1ids : List String) (st : BfsState) (seen : List Node) : Prop :=
  (∀ j ∈ seen, j.id ∈ st.processed) ∧
  (∀ j ∈ seen, ∀ x, AdjVia connectors j.id x → Resolvable nodes x →
    x ∈ st.processed) ∧
  (∀ k, st.colors k ≠ none → k ∈ l1ids ∨
    ∃ j, seen.find? (fun n => adjB connectors n k) = some j ∧
      st.colors k = st.colors j.id)

/-- A concrete node with the given id, position and size (remaining
fields defaulted), used to instantiate theorems on concrete inputs. -/
def mkNode (nodeId : String) (x y w h : ℚ) : Node :=
  { id := nodeId, type := "main", title := nodeId, description := "",
    icon := "idea", imageUrl := none,
    position := { x := x, y := y }, size := { w := w, h := h },
    loop := none, sideBox := none }

/-- A concrete diagram with the given title and no content. -/
def mkDiagram (t : String) : FlowchartData :=
  { title := t, caption := "", headerImage := none,
    canvas := { width := 1200, height := 1000 },
    nodes := [], connectors := [], sideBoxes := none,
    supportingPanel := none, diagramType := none }

/-- Scenario E starting state: history `[S1, S2, S3]` at index 2. -/
def sE : AppState :=
  { flowchartData := some (mkDiagram "S3"),
    history := [mkDiagram "S1", mkDiagram "S2", mkDiagram "S3"],
    historyIndex := 2, zoom := 1, pan := { x := 0, y := 0 } }

/-- A plain flow connector. -/
def connFlow (cid a b : String) : Connector :=
  { id := cid, fromId := a, toId := b, type := "flow", style := none }

/-- A concrete side box attached to the given node. -/
def mkSideBox (sid att : String) : SideBox :=
  { id := sid, text := "", attachToNode := att, position := "right",
    size := { w := 180, h := 38 }, lineStyle := "solid" }

/-- A concrete two-node diagram with one connector and one side box. -/
def dN : FlowchartData :=
  { mkDiagram "D" with
    nodes := [mkNode "n1" 0 0 600 86, mkNode "n2" 0 140 600 86],
    connectors := [connFlow "c1" "n1" "n2"],
    sideBoxes := some [mkSideBox "s1" "n2"] }

/-- A concrete app state whose history holds just `dN`. -/
def sN : AppState :=
  { flowchartData := some dN, history := [dN], historyIndex := 0,
    zoom := 1, pan := { x := 0, y := 0 } }

/-- A concrete mind-map diagram: root `R` (no incoming connector) and a
child `A`. -/
def dM : FlowchartData :=
  { mkDiagram "M" with
    nodes := [mkNode "R" 500 500 100 100, mkNode "A" 800 500 100 100],
    connectors := [connFlow "c1" "R" "A"],
    diagramType := some DiagramType.MINDMAP }

/-- Scenario B root: the node whose center coincides with the canvas
center of `dataB`. -/
def rB : Node := mkNode "R" 450 450 100 100

/-- Scenario B diagram: root `R` at the canvas center, level-1 nodes
`A`, `B`, `C` and a further node `A1` attached to `A`. -/
def dataB : FlowchartData :=
  { mkDiagram "B" with
    canvas := { width := 1000, height := 1000 },
    nodes := [rB, mkNode "A" 700 450 100 100, mkNode "B" 450 700 100 100,
              mkNode "C" 200 450 100 100, mkNode "A1" 900 450 100 100],
    connectors := [connFlow "c1" "R" "A", connFlow "c2" "R" "B",
                   connFlow "c3" "R" "C", connFlow "c4" "A" "A1"],
    diagramType := some DiagramType.MINDMAP }

/-- Root of the C4 counterexample diagram. -/
def rCex : Node := mkNode "R" 450 450 100 100

/-- C4 counterexample diagram: the root carries a self-loop connector and
is doubly connected to `A`. -/
def dataCex : FlowchartData :=
  { mkDiagram "X" with
    canvas := { width := 1000, height := 1000 },
    nodes := [rCex, mkNode "A" 700 450 100 100],
    connectors := [connFlow "c1" "R" "R", connFlow "c2" "R" "A",
                   connFlow "c3" "A" "R"],
    diagramType := some DiagramType.MINDMAP }

end AiMaker

namespace AiMaker

/-- C8: the auto-sized height is `max(86, measured + 40)` (so measured
height 120 yields 160), is always at least the minimum 86, and the new
size is emitted exactly when it differs from the current height by more
than the epsilon 5, leaving the node's size untouched otherwise. -/
theorem auto_size_height (m : ℚ) (node : Node) :
    autoNewHeight m = max 86 (m + 40) ∧
    86 ≤ autoNewHeight m ∧
    autoNewHeight 120 = 160 ∧
    (5 < |autoNewHeight m - node.size.h| →
      autoResizeUpdate m node = some { w := node.size.w, h := autoNewHeight m }) ∧
    (|autoNewHeight m - node.size.h| ≤ 5 → autoResizeUpdate m node = none) := by
  refine ⟨rfl, le_max_left _ _, by norm_num [autoNewHeight], ?_, ?_⟩
  · intro h
    simp [autoResizeUpdate, if_pos h]
  · intro h
    simp [autoResizeUpdate, not_lt.mpr h]

/-- Witness for C8 at measured height 120 on a node of height 100. -/
theorem auto_size_height_witness :
    (5 : ℚ) < |autoNewHeight 120 - (mkNode "n" 0 0 600 100).size.h| ∧
    autoResizeUpdate 120 (mkNode "n" 0 0 600 100) =
      some { w := (mkNode "n" 0 0 600 100).size.w, h := autoNewHeight 120 } :=
  ⟨by norm_num [autoNewHeight, mkNode],
   (auto_size_height 120 (mkNode "n" 0 0 600 100)).2.2.2.1
     (by norm_num [autoNewHeight, mkNode])⟩

/-- C2: for every pinch update with positive start and current distances,
the update fires with zoom `clamp(z0 * d / d0, 0.2, 3)` and pan
`p0 + f * (1/newZoom - 1/z0)`, exactly; consequently the model-space
point under the focal screen point is unchanged. -/
theorem pinch_zoom_focal_exact (ps : PinchStart) (dist : ℚ)
    (h0 : 0 < ps.startDist) (h1 : 0 < dist) :
    handleTouchMove ps dist =
      some (clampZoom (ps.startZoom * (dist / ps.startDist)),
        { x := ps.startPan.x + ps.center.x *
            (1 / clampZoom (ps.startZoom * (dist / ps.startDist)) - 1 / ps.startZoom)
          y := ps.startPan.y + ps.center.y *
            (1 / clampZoom (ps.startZoom * (dist / ps.startDist)) - 1 / ps.startZoom) }) ∧
    (∀ z p, handleTouchMove ps dist = some (z, p) →
      ps.center.x / z - p.x = ps.center.x / ps.startZoom - ps.startPan.x ∧
      ps.center.y / z - p.y = ps.center.y / ps.startZoom - ps.startPan.y) := by
  have hcond : 0 < ps.startDist ∧ 0 < dist := ⟨h0, h1⟩
  constructor
  · simp only [handleTouchMove, if_pos hcond, clampZoom]
  · intro z p hzp
    simp only [handleTouchMove, if_pos hcond, Option.some.injEq, Prod.mk.injEq] at hzp
    obtain ⟨hz, hp⟩ := hzp
    subst hz
    subst hp
    constructor <;> · dsimp only; ring

/-- Witness for C2: Scenario C (start zoom 1, pan (0,0), distances 100
then 200, focal point (400,300)) gives zoom 2 and pan (-200,-150). -/
theorem pinch_zoom_focal_exact_witness :
    (0 : ℚ) < 100 ∧ (0 : ℚ) < 200 ∧
    handleTouchMove
      { startDist := 100, startZoom := 1,
        startPan := { x := 0, y := 0 }, center := { x := 400, y := 300 } } 200 =
      some (2, { x := -200, y := -150 }) := by
  refine ⟨by norm_num, by norm_num, ?_⟩
  rw [(pinch_zoom_focal_exact
    { startDist := 100, startZoom := 1,
      startPan := { x := 0, y := 0 }, center := { x := 400, y := 300 } } 200
    (by norm_num) (by norm_num)).1]
  norm_num [clampZoom]

/-- C3 counterexample: `setZoom` is the raw state setter and does not
clamp (`setZoom 100` leaves zoom 100, outside `[0.2, 3]`), and the
zoom-in button alone does not force the result into the range for an
arbitrary starting zoom (from 0.05 it yields 0.15 < 0.2). -/
theorem zoom_ops_cex :
    setZoom 100 = 100 ∧ ¬ ((0.2 : ℚ) ≤ setZoom 100 ∧ setZoom 100 ≤ 3) ∧
    zoomInButton 0.05 = 0.15 ∧ ¬ ((0.2 : ℚ) ≤ zoomInButton 0.05) := by
  refine ⟨rfl, ?_, ?_, ?_⟩
  · norm_num [setZoom]
  · norm_num [zoomInButton]
  · norm_num [zoomInButton]

/-- C3 (amended): the zoom-in/zoom-out buttons keep the zoom in
`[0.2, 3]` provided the starting zoom is in that range, the reset button
always yields 1 (inside the range), every pinch update yields a zoom in
the range, and `setZoom` passes its argument through unclamped. -/
theorem zoom_ops_range_amended (z v : ℚ) (hz : 0.2 ≤ z ∧ z ≤ 3) :
    (0.2 ≤ zoomInButton z ∧ zoomInButton z ≤ 3) ∧
    (0.2 ≤ zoomOutButton z ∧ zoomOutButton z ≤ 3) ∧
    (0.2 ≤ zoomResetButton ∧ zoomResetButton ≤ 3) ∧
    setZoom v = v ∧
    (∀ ps dist z2 p, handleTouchMove ps dist = some (z2, p) →
      0.2 ≤ z2 ∧ z2 ≤ 3) := by
  obtain ⟨hz1, hz2⟩ := hz
  refine ⟨⟨?_, ?_⟩, ⟨?_, ?_⟩, ⟨by norm_num [zoomResetButton], by norm_num [zoomResetButton]⟩,
    rfl, ?_⟩
  · exact le_min (by linarith) (by norm_num)
  · exact min_le_right _ _
  · exact le_max_right _ _
  · exact max_le (by linarith) (by norm_num)
  · intro ps dist z2 p h
    unfold handleTouchMove at h
    split at h
    · simp only [Option.some.injEq, Prod.mk.injEq] at h
      obtain ⟨hz', -⟩ := h
      subst hz'
      exact ⟨le_max_left _ _, max_le (by norm_num) (min_le_left _ _)⟩
    · exact absurd h (by simp)

/-- Witness for C3 (amended) at starting zoom 1 and argument 5. -/
theorem zoom_ops_range_amended_witness :
    ((0.2 : ℚ) ≤ 1 ∧ (1 : ℚ) ≤ 3) ∧
    (0.2 ≤ zoomInButton 1 ∧ zoomInButton 1 ≤ 3) :=
  ⟨by norm_num, (zoom_ops_range_amended 1 5 (by norm_num)).1⟩

/-- C7 counterexample: with source top 0, height 100 and target top 0,
the target's top is above the source's bottom by 100 > 50 (the spec's
loop-back condition), yet the code routes the normal downward cubic,
because the code compares the nodes' tops
(`fromNode.position.y > toNode.position.y + 50`). -/
theorem loopback_threshold_cex :
    specLoopBackCond (mkNode "f" 0 0 100 100) (mkNode "t" 300 0 100 100) ∧
    connectorRoute DiagramType.FLOWCHART (mkNode "f" 0 0 100 100) (mkNode "t" 300 0 100 100) =
      ConnRoute.normal 50 100 50 160 350 (-60) 350 0 := by
  constructor
  · norm_num [specLoopBackCond, mkNode]
  · unfold connectorRoute
    rw [if_neg (by decide), if_neg (by norm_num [mkNode])]
    norm_num [mkNode]

/-- C7 (amended): in flowchart mode the loop-back route is selected
exactly when the target's TOP is above the source's TOP by more than 50
units; in that case the path runs from the source's right-middle edge via
control points 100 units to the right of the source's and target's
right-middle edges into the target's right-middle edge; otherwise the
normal downward cubic from the source's bottom-center to the target's
top-center (control points 60 units beyond each anchor) is used; the
flowchart stroke width defaults to 2 and a nonzero override wins. -/
theorem connector_routing_amended (f t : Node) :
    (f.position.y > t.position.y + 50 →
      connectorRoute DiagramType.FLOWCHART f t =
        ConnRoute.loopBack
          (f.position.x + f.size.w) (f.position.y + f.size.h / 2)
          (f.position.x + f.size.w + 100) (f.position.y + f.size.h / 2)
          (t.position.x + t.size.w + 100) (t.position.y + t.size.h / 2)
          (t.position.x + t.size.w) (t.position.y + t.size.h / 2)) ∧
    (¬ f.position.y > t.position.y + 50 →
      connectorRoute DiagramType.FLOWCHART f t =
        ConnRoute.normal
          (f.position.x + f.size.w / 2) (f.position.y + f.size.h)
          (f.position.x + f.size.w / 2) (f.position.y + f.size.h + 60)
          (t.position.x + t.size.w / 2) (t.position.y - 60)
          (t.position.x + t.size.w / 2) (t.position.y)) ∧
    connectorStrokeWidth DiagramType.FLOWCHART none = 2 ∧
    (∀ dash w, w ≠ 0 →
      connectorStrokeWidth DiagramType.FLOWCHART
        (some { strokeDasharray := dash, strokeWidth := some w }) = w) := by
  refine ⟨?_, ?_, by simp only [connectorStrokeWidth]; rw [if_neg (by decide)], ?_⟩
  · intro h
    unfold connectorRoute
    rw [if_neg (by decide), if_pos h]
  · intro h
    unfold connectorRoute
    rw [if_neg (by decide), if_neg h]
  · intro dash w hw
    simp only [connectorStrokeWidth]
    rw [if_neg hw]

/-- Witness for C7 (amended): a source whose top is 200 above a target at
top 0 takes the loop-back route. -/
theorem connector_routing_amended_witness :
    ((mkNode "a" 0 200 100 100).position.y > (mkNode "b" 0 0 100 100).position.y + 50) ∧
    connectorRoute DiagramType.FLOWCHART (mkNode "a" 0 200 100 100) (mkNode "b" 0 0 100 100) =
      ConnRoute.loopBack 100 250 200 250 200 50 100 50 := by
  constructor
  · norm_num [mkNode]
  · rw [(connector_routing_amended (mkNode "a" 0 200 100 100) (mkNode "b" 0 0 100 100)).1
      (by norm_num [mkNode])]
    norm_num [mkNode]

/-- C1: `commit` truncates after the current index, appends the new
diagram and lands the index on the new last entry (which is also the
exposed diagram); `undo` is a no-op at index 0 and otherwise decrements
the index, exposing the snapshot there; `redo` is a no-op at the last
entry and otherwise increments the index.  Scenario E from
history `[S1, S2, S3]` at index 2: two undos then a commit of `S4` give
history `[S1, S4]` at index 1, and a redo is a no-op. -/
theorem history_commit_undo_redo (s : AppState) (d : FlowchartData)
    (hinv : s.historyIndex < s.history.length) :
    ((pushToHistory s d).history = s.history.take (s.historyIndex + 1) ++ [d] ∧
     (pushToHistory s d).historyIndex + 1 = (pushToHistory s d).history.length ∧
     (pushToHistory s d).history[(pushToHistory s d).historyIndex]? = some d ∧
     (pushToHistory s d).flowchartData = some d) ∧
    (s.historyIndex = 0 → handleUndo s = s) ∧
    (0 < s.historyIndex →
      (handleUndo s).historyIndex = s.historyIndex - 1 ∧
      (handleUndo s).history = s.history ∧
      (handleUndo s).flowchartData = s.history[s.historyIndex - 1]?) ∧
    (s.historyIndex = s.history.length - 1 → handleRedo s = s) ∧
    (s.historyIndex < s.history.length - 1 →
      (handleRedo s).historyIndex = s.historyIndex + 1 ∧
      (handleRedo s).history = s.history ∧
      (handleRedo s).flowchartData = s.history[s.historyIndex + 1]?) ∧
    (pushToHistory (handleUndo (handleUndo sE)) (mkDiagram "S4")).history
      = [mkDiagram "S1", mkDiagram "S4"] ∧
    (pushToHistory (handleUndo (handleUndo sE)) (mkDiagram "S4")).historyIndex = 1 ∧
    handleRedo (pushToHistory (handleUndo (handleUndo sE)) (mkDiagram "S4"))
      = pushToHistory (handleUndo (handleUndo sE)) (mkDiagram "S4") := by
  have htl : (s.history.take (s.historyIndex + 1)).length = s.historyIndex + 1 := by
    rw [List.length_take]; omega
  refine ⟨⟨rfl, ?_, ?_, rfl⟩, ?_, ?_, ?_, ?_, ?_, ?_, ?_⟩
  · simp only [pushToHistory, List.length_append, List.length_take, List.length_cons,
      List.length_nil]
    omega
  · show (s.history.take (s.historyIndex + 1) ++ [d])[s.historyIndex + 1]? = some d
    rw [List.getElem?_append_right (by omega), htl]
    simp
  · intro h0
    simp [handleUndo, h0]
  · intro hpos
    unfold handleUndo
    rw [if_pos hpos]
    exact ⟨rfl, rfl, rfl⟩
  · intro hlast
    have : ¬ s.historyIndex < s.history.length - 1 := by omega
    simp [handleRedo, this]
  · intro hmid
    unfold handleRedo
    rw [if_pos hmid]
    exact ⟨rfl, rfl, rfl⟩
  · simp [sE, handleUndo, pushToHistory]
  · simp [sE, handleUndo, pushToHistory]
  · simp [sE, handleUndo, pushToHistory, handleRedo]

/-- Witness for C1: committing `S4` onto Scenario E's state. -/
theorem history_commit_undo_redo_witness :
    sE.historyIndex < sE.history.length ∧
    (pushToHistory sE (mkDiagram "S4")).flowchartData = some (mkDiagram "S4") :=
  ⟨by simp [sE],
   (history_commit_undo_redo sE (mkDiagram "S4") (by simp [sE])).1.2.2.2⟩

/-- C10: an auto-size update through `handleNodeSizeChange` changes only
the targeted node's size field; every other node, every other diagram
field and the entire history (entries and index, plus the viewport) are
untouched, so no undo entry is created. -/
theorem node_size_change_frame (s : AppState) (nodeId : String) (newSize : Size)
    (data : FlowchartData) (h : s.flowchartData = some data) :
    (handleNodeSizeChange s nodeId newSize).history = s.history ∧
    (handleNodeSizeChange s nodeId newSize).historyIndex = s.historyIndex ∧
    (handleNodeSizeChange s nodeId newSize).zoom = s.zoom ∧
    (handleNodeSizeChange s nodeId newSize).pan = s.pan ∧
    ∃ d, (handleNodeSizeChange s nodeId newSize).flowchartData = some d ∧
      d.title = data.title ∧ d.caption = data.caption ∧
      d.headerImage = data.headerImage ∧ d.canvas = data.canvas ∧
      d.connectors = data.connectors ∧ d.sideBoxes = data.sideBoxes ∧
      d.supportingPanel = data.supportingPanel ∧ d.diagramType = data.diagramType ∧
      d.nodes.length = data.nodes.length ∧
      ∀ i (h1 : i < data.nodes.length) (h2 : i < d.nodes.length),
        d.nodes[i].id = data.nodes[i].id ∧
        d.nodes[i].type = data.nodes[i].type ∧
        d.nodes[i].title = data.nodes[i].title ∧
        d.nodes[i].description = data.nodes[i].description ∧
        d.nodes[i].icon = data.nodes[i].icon ∧
        d.nodes[i].imageUrl = data.nodes[i].imageUrl ∧
        d.nodes[i].position = data.nodes[i].position ∧
        d.nodes[i].loop = data.nodes[i].loop ∧
        d.nodes[i].sideBox = data.nodes[i].sideBox ∧
        (data.nodes[i].id = nodeId → d.nodes[i].size = newSize) ∧
        (data.nodes[i].id ≠ nodeId → d.nodes[i].size = data.nodes[i].size) := by
  have hres : handleNodeSizeChange s nodeId newSize =
      { s with flowchartData := some { data with
          nodes := data.nodes.map fun n =>
            if n.id = nodeId then { n with size := newSize } else n } } := by
    unfold handleNodeSizeChange
    rw [h]
  rw [hres]
  refine ⟨rfl, rfl, rfl, rfl,
    ⟨{ data with nodes := data.nodes.map fun n =>
        if n.id = nodeId then { n with size := newSize } else n },
      rfl, rfl, rfl, rfl, rfl, rfl, rfl, rfl, rfl, List.length_map _ _, ?_⟩⟩
  intro i h1 h2
  simp only [List.getElem_map]
  by_cases hid : data.nodes[i].id = nodeId
  · simp [hid]
  · simp [hid]

/-- Witness for C10: resizing node `n2` of the concrete state `sN` leaves
history and index untouched. -/
theorem node_size_change_frame_witness :
    sN.flowchartData = some dN ∧
    (handleNodeSizeChange sN "n2" { w := 600, h := 160 }).history = sN.history ∧
    (handleNodeSizeChange sN "n2" { w := 600, h := 160 }).historyIndex = sN.historyIndex :=
  ⟨rfl,
   (node_size_change_frame sN "n2" { w := 600, h := 160 } dN rfl).1,
   (node_size_change_frame sN "n2" { w := 600, h := 160 } dN rfl).2.1⟩

/-- The `newData` built by `handleDeleteNode` in `App.tsx`. -/
def deleteNodeData (data : FlowchartData) (x : String) : FlowchartData :=
  { data with
    nodes := data.nodes.filter fun n => decide (n.id ≠ x)
    connectors := data.connectors.filter fun c => decide (c.fromId ≠ x ∧ c.toId ≠ x)
    sideBoxes := some ((data.sideBoxes.getD []).filter fun b => decide (b.attachToNode ≠ x)) }

/-- C6: deleting node `x` leaves no node with id `x`, no connector
touching `x` and no side box attached to `x`, preserves everything not
referencing `x`, keeps the other diagram fields, and commits the result
as one new history entry. -/
theorem delete_node_closure (s : AppState) (x : String) (data : FlowchartData)
    (h : s.flowchartData = some data) (hinv : s.historyIndex < s.history.length) :
    (handleDeleteNode s x).flowchartData = some (deleteNodeData data x) ∧
    (∀ n, n ∈ (deleteNodeData data x).nodes ↔ n ∈ data.nodes ∧ n.id ≠ x) ∧
    (∀ c, c ∈ (deleteNodeData data x).connectors ↔
      c ∈ data.connectors ∧ c.fromId ≠ x ∧ c.toId ≠ x) ∧
    (∃ bs, (deleteNodeData data x).sideBoxes = some bs ∧
      ∀ b, b ∈ bs ↔ b ∈ data.sideBoxes.getD [] ∧ b.attachToNode ≠ x) ∧
    (deleteNodeData data x).title = data.title ∧
    (deleteNodeData data x).caption = data.caption ∧
    (deleteNodeData data x).canvas = data.canvas ∧
    (deleteNodeData data x).supportingPanel = data.supportingPanel ∧
    (deleteNodeData data x).diagramType = data.diagramType ∧
    (handleDeleteNode s x).history
      = s.history.take (s.historyIndex + 1) ++ [deleteNodeData data x] ∧
    (handleDeleteNode s x).historyIndex = s.historyIndex + 1 ∧
    (handleDeleteNode s x).historyIndex + 1 = (handleDeleteNode s x).history.length := by
  have hres : handleDeleteNode s x = pushToHistory s (deleteNodeData data x) := by
    unfold handleDeleteNode
    rw [h]
    rfl
  rw [hres]
  refine ⟨rfl, ?_, ?_, ⟨_, rfl, ?_⟩, rfl, rfl, rfl, rfl, rfl, rfl, rfl, ?_⟩
  · intro n
    simp [deleteNodeData, List.mem_filter]
  · intro c
    simp [deleteNodeData, List.mem_filter]
  · intro b
    simp [deleteNodeData, List.mem_filter]
  · simp only [pushToHistory, List.length_append, List.length_take, List.length_cons,
      List.length_nil]
    omega

/-- Witness for C6: deleting `n2` from the concrete state `sN` removes
the node, the connector `c1` into it and the side box attached to it. -/
theorem delete_node_closure_witness :
    (sN.flowchartData = some dN ∧ sN.historyIndex < sN.history.length) ∧
    (handleDeleteNode sN "n2").flowchartData = some (deleteNodeData dN "n2") ∧
    (deleteNodeData dN "n2").nodes = [mkNode "n1" 0 0 600 86] ∧
    (deleteNodeData dN "n2").connectors = [] ∧
    (deleteNodeData dN "n2").sideBoxes = some [] := by
  refine ⟨⟨rfl, by simp [sN]⟩,
    (delete_node_closure sN "n2" dN rfl (by simp [sN])).1, ?_, ?_, ?_⟩
  · simp [deleteNodeData, dN, mkDiagram, mkNode, connFlow, mkSideBox]
  · simp [deleteNodeData, dN, mkDiagram, mkNode, connFlow, mkSideBox]
  · simp [deleteNodeData, dN, mkDiagram, mkNode, connFlow, mkSideBox]

/-- C5: in mind-map mode, a position change for a node with no incoming
connector translates every node by the same delta (so all pairwise
coordinate differences, hence inter-node distances, are preserved), while
a node with an incoming connector moves alone, every other node keeping
its position. -/
theorem mindmap_root_drag (appDT : DiagramType) (data : FlowchartData)
    (nodeId : String) (newPos : Position)
    (hm : data.diagramType = some DiagramType.MINDMAP ∨ appDT = DiagramType.MINDMAP) :
    ((∀ c ∈ data.connectors, c.toId ≠ nodeId) →
      ∀ X, data.nodes.find? (fun n => decide (n.id = nodeId)) = some X →
      (nodePositionChangeData appDT data nodeId newPos).nodes.length = data.nodes.length ∧
      (∀ i (h1 : i < data.nodes.length)
          (h2 : i < (nodePositionChangeData appDT data nodeId newPos).nodes.length),
        (nodePositionChangeData appDT data nodeId newPos).nodes[i].position.x
          = data.nodes[i].position.x + (newPos.x - X.position.x) ∧
        (nodePositionChangeData appDT data nodeId newPos).nodes[i].position.y
          = data.nodes[i].position.y + (newPos.y - X.position.y) ∧
        (nodePositionChangeData appDT data nodeId newPos).nodes[i].id = data.nodes[i].id ∧
        (nodePositionChangeData appDT data nodeId newPos).nodes[i].size = data.nodes[i].size) ∧
      (∀ i j (hi1 : i < data.nodes.length) (hj1 : j < data.nodes.length)
          (hi2 : i < (nodePositionChangeData appDT data nodeId newPos).nodes.length)
          (hj2 : j < (nodePositionChangeData appDT data nodeId newPos).nodes.length),
        (nodePositionChangeData appDT data nodeId newPos).nodes[i].position.x
            - (nodePositionChangeData appDT data nodeId newPos).nodes[j].position.x
          = data.nodes[i].position.x - data.nodes[j].position.x ∧
        (nodePositionChangeData appDT data nodeId newPos).nodes[i].position.y
            - (nodePositionChangeData appDT data nodeId newPos).nodes[j].position.y
          = data.nodes[i].position.y - data.nodes[j].position.y)) ∧
    ((∃ c ∈ data.connectors, c.toId = nodeId) →
      (nodePositionChangeData appDT data nodeId newPos).nodes.length = data.nodes.length ∧
      ∀ i (h1 : i < data.nodes.length)
          (h2 : i < (nodePositionChangeData appDT data nodeId newPos).nodes.length),
        (data.nodes[i].id = nodeId →
          (nodePositionChangeData appDT data nodeId newPos).nodes[i]
            = { data.nodes[i] with position := newPos }) ∧
        (data.nodes[i].id ≠ nodeId →
          (nodePositionChangeData appDT data nodeId newPos).nodes[i] = data.nodes[i])) := by
  constructor
  · intro hnoinc X hfind
    have hany : data.connectors.any (fun c => decide (c.toId = nodeId)) = false := by
      rw [List.any_eq_false]
      intro c hc
      simp [hnoinc c hc]
    have hres : nodePositionChangeData appDT data nodeId newPos =
        { data with nodes := data.nodes.map fun n =>
            { n with position := { x := n.position.x + (newPos.x - X.position.x),
                                   y := n.position.y + (newPos.y - X.position.y) } } } := by
      unfold nodePositionChangeData
      rw [if_pos ⟨hm, by simp [hany]⟩, hfind]
    rw [hres]
    refine ⟨List.length_map _ _, ?_, ?_⟩
    · intro i h1 h2
      simp [List.getElem_map]
    · intro i j hi1 hj1 hi2 hj2
      simp only [List.getElem_map]
      constructor <;> · dsimp only; ring
  · intro hinc
    have hany : data.connectors.any (fun c => decide (c.toId = nodeId)) = true := by
      rw [List.any_eq_true]
      obtain ⟨c, hc, hct⟩ := hinc
      exact ⟨c, hc, by simp [hct]⟩
    have hres : nodePositionChangeData appDT data nodeId newPos =
        { data with nodes := data.nodes.map fun n =>
            if n.id = nodeId then { n with position := newPos } else n } := by
      unfold nodePositionChangeData
      rw [if_neg (by simp [hany])]
    rw [hres]
    refine ⟨List.length_map _ _, ?_⟩
    intro i h1 h2
    simp only [List.getElem_map]
    by_cases hid : data.nodes[i].id = nodeId
    · simp [hid]
    · simp [hid]

/-- Witness for C5: dragging the root `R` of the concrete mind map `dM`
from (500,500) to (600,600) shifts `A` from (800,500) to (900,600). -/
theorem mindmap_root_drag_witness :
    (dM.diagramType = some DiagramType.MINDMAP ∨
      DiagramType.MINDMAP = DiagramType.MINDMAP) ∧
    (∀ c ∈ dM.connectors, c.toId ≠ "R") ∧
    (nodePositionChangeData DiagramType.MINDMAP dM "R" { x := 600, y := 600 }).nodes.length
      = dM.nodes.length ∧
    ((nodePositionChangeData DiagramType.MINDMAP dM "R" { x := 600, y := 600 }).nodes[1]?.map
      fun n => (n.position.x, n.position.y)) = some (900, 600) := by
  have hnoinc : ∀ c ∈ dM.connectors, c.toId ≠ "R" := by
    intro c hc
    rw [show dM.connectors = [connFlow "c1" "R" "A"] from rfl, List.mem_singleton] at hc
    subst hc
    decide
  have hfind : dM.nodes.find? (fun n => decide (n.id = "R"))
      = some (mkNode "R" 500 500 100 100) := rfl
  have hA := (mindmap_root_drag DiagramType.MINDMAP dM "R" { x := 600, y := 600 }
    (Or.inl rfl)).1 hnoinc (mkNode "R" 500 500 100 100) hfind
  have h2 : 1 < (nodePositionChangeData DiagramType.MINDMAP dM "R"
      { x := 600, y := 600 }).nodes.length := by
    rw [hA.1]; decide
  have hx := (hA.2.1 1 (by decide) h2).1
  have hy := (hA.2.1 1 (by decide) h2).2.1
  rw [show dM.nodes[1].position.x = 800 from rfl] at hx
  rw [show dM.nodes[1].position.y = 500 from rfl] at hy
  norm_num [mkNode] at hx hy
  refine ⟨Or.inl rfl, hnoinc, hA.1, ?_⟩
  rw [List.getElem?_eq_getElem h2]
  simp [hx, hy]

/-- C9: for a mind-map diagram the branch-color computation fails
(`data.nodes[0].id` on an empty array) exactly when the node list is
empty, and is well-defined (returns a color map) whenever there is at
least one node. -/
theorem colors_empty_nodes_undefined (data : FlowchartData) :
    (nodeColorMap DiagramType.MINDMAP data = none ↔ data.nodes = []) ∧
    (data.nodes = [] → nodeColorMap DiagramType.MINDMAP data = none) ∧
    (data.nodes ≠ [] → ∃ m, nodeColorMap DiagramType.MINDMAP data = some m) := by
  have hred : nodeColorMap DiagramType.MINDMAP data =
      match findRoot (data.canvas.width / 2) (data.canvas.height / 2) data.nodes with
      | none => none
      | some root => some (nodeColorMapRun data root).1 := by
    unfold nodeColorMap
    rw [if_neg (by simp)]
  cases hn : data.nodes with
  | nil =>
    rw [hred]
    simp [findRoot, hn]
  | cons a l =>
    rw [hred]
    simp [findRoot, hn]

/-- Witness for C9: the empty diagram has no color map; a one-node
diagram has one. -/
theorem colors_empty_nodes_undefined_witness :
    (mkDiagram "E").nodes = [] ∧
    nodeColorMap DiagramType.MINDMAP (mkDiagram "E") = none :=
  ⟨rfl, (colors_empty_nodes_undefined (mkDiagram "E")).2.1 rfl⟩

theorem childOf_eq_some_iff (processed : List String) (parentId : String)
    (c : Connector) (k : String) :
    childOf processed parentId c = some k ↔
      ((c.toId = parentId ∧ c.fromId ∉ processed) ∧ c.fromId = k) ∨
      (¬ (c.toId = parentId ∧ c.fromId ∉ processed) ∧
        (c.fromId = parentId ∧ c.toId ∉ processed) ∧ c.toId = k) := by
  unfold childOf
  by_cases h1 : c.toId = parentId ∧ c.fromId ∉ processed
  · rw [if_pos h1]
    constructor
    · intro hk
      exact Or.inl ⟨h1, Option.some.inj hk⟩
    · rintro (⟨-, hk⟩ | ⟨hcontra, -⟩)
      · exact congrArg some hk
      · exact absurd h1 hcontra
  · rw [if_neg h1]
    by_cases h2 : c.fromId = parentId ∧ c.toId ∉ processed
    · rw [if_pos h2]
      constructor
      · intro hk
        exact Or.inr ⟨h1, h2, Option.some.inj hk⟩
      · rintro (⟨hcontra, -⟩ | ⟨-, -, hk⟩)
        · exact absurd hcontra h1
        · exact congrArg some hk
    · rw [if_neg h2]
      constructor
      · intro hk
        exact absurd hk (by simp)
      · rintro (⟨hcontra, -⟩ | ⟨-, hcontra, -⟩)
        · exact absurd hcontra h1
        · exact absurd hcontra h2

theorem childOf_eq_none_iff (processed : List String) (parentId : String)
    (c : Connector) :
    childOf processed parentId c = none ↔
      ¬ (c.toId = parentId ∧ c.fromId ∉ processed) ∧
      ¬ (c.fromId = parentId ∧ c.toId ∉ processed) := by
  unfold childOf
  by_cases h1 : c.toId = parentId ∧ c.fromId ∉ processed
  · rw [if_pos h1]
    simp [h1]
  · rw [if_neg h1]
    by_cases h2 : c.fromId = parentId ∧ c.toId ∉ processed
    · rw [if_pos h2]
      simp [h1, h2]
    · rw [if_neg h2]
      simp [h1, h2]

theorem adjVia_cons_iff (c : Connector) (cs : List Connector) (a b : String) :
    AdjVia (c :: cs) a b ↔
      ((c.fromId = a ∧ c.toId = b) ∨ (c.toId = a ∧ c.fromId = b)) ∨ AdjVia cs a b := by
  simp [AdjVia, List.mem_cons, or_and_right, exists_or]

theorem findNode_eq_some_imp (nodes : List Node) (b : String) (n : Node)
    (h : findNode nodes b = some n) : n ∈ nodes ∧ n.id = b := by
  unfold findNode at h
  have h2 := List.find?_some h
  simp only [decide_eq_true_eq] at h2
  exact ⟨List.mem_of_find?_eq_some h, h2⟩

theorem findNode_of_resolvable (nodes : List Node) (b : String) (h : Resolvable nodes b) :
    ∃ n, findNode nodes b = some n := by
  obtain ⟨n, hn, hid⟩ := h
  have hs : (nodes.find? fun n => decide (n.id = b)).isSome := by
    rw [List.find?_isSome]
    exact ⟨n, hn, by simp [hid]⟩
  exact Option.isSome_iff_exists.mp hs

theorem unproc_cons_of (nodes : List Node) (processed : List String) (a : String)
    (ha1 : a ∈ nodes.map Node.id) (ha2 : a ∉ processed) :
    unproc nodes (a :: processed) + 1 = unproc nodes processed := by
  unfold unproc
  have hset : ((nodes.map Node.id).toFinset.filter (fun x => x ∉ a :: processed))
      = ((nodes.map Node.id).toFinset.filter (fun x => x ∉ processed)).erase a := by
    ext x
    simp only [Finset.mem_filter, Finset.mem_erase, List.mem_cons]
    tauto
  have hamem : a ∈ (nodes.map Node.id).toFinset.filter (fun x => x ∉ processed) := by
    simp only [Finset.mem_filter]
    exact ⟨List.mem_toFinset.mpr ha1, ha2⟩
  rw [hset, Finset.card_erase_of_mem hamem]
  have hpos : 0 < ((nodes.map Node.id).toFinset.filter (fun x => x ∉ processed)).card :=
    Finset.card_pos.mpr ⟨a, hamem⟩
  omega

theorem unproc_le (nodes : List Node) (processed : List String) :
    unproc nodes processed ≤ nodes.length := by
  unfold unproc
  calc ((nodes.map Node.id).toFinset.filter (fun a => a ∉ processed)).card
      ≤ (nodes.map Node.id).toFinset.card := Finset.card_filter_le _ _
    _ ≤ (nodes.map Node.id).length := List.toFinset_card_le _
    _ = nodes.length := List.length_map _ _

theorem childOf_some_not_processed (processed : List String) (parentId : String)
    (c : Connector) (k : String) (h : childOf processed parentId c = some k) :
    k ∉ processed := by
  rcases (childOf_eq_some_iff _ _ _ _).mp h with ⟨⟨-, hnp⟩, hfk⟩ | ⟨-, ⟨-, hnp⟩, hfk⟩
  · rw [← hfk]; exact hnp
  · rw [← hfk]; exact hnp

theorem childOf_some_adj (processed : List String) (parentId : String)
    (c : Connector) (k : String) (h : childOf processed parentId c = some k) :
    (c.fromId = parentId ∧ c.toId = k) ∨ (c.toId = parentId ∧ c.fromId = k) := by
  rcases (childOf_eq_some_iff _ _ _ _).mp h with ⟨⟨ht, -⟩, hfk⟩ | ⟨-, ⟨hf, -⟩, hfk⟩
  · exact Or.inr ⟨ht, hfk⟩
  · exact Or.inl ⟨hf, hfk⟩

theorem processConns_cons (nodes : List Node) (parentId : String)
    (parentColor : Option String) (st : BfsState) (c : Connector) (cs : List Connector) :
    processConns nodes parentId parentColor st (c :: cs) =
      match childOf st.processed parentId c with
      | none => processConns nodes parentId parentColor st cs
      | some childId =>
        match findNode nodes childId with
        | none => processConns nodes parentId parentColor st cs
        | some child =>
          processConns nodes parentId parentColor
            { colors := setColor st.colors childId parentColor
              processed := childId :: st.processed
              queue := st.queue ++ [child] } cs := rfl

theorem processConns_cons_skip1 (nodes : List Node) (parentId : String)
    (parentColor : Option String) (st : BfsState) (c : Connector) (cs : List Connector)
    (h : childOf st.processed parentId c = none) :
    processConns nodes parentId parentColor st (c :: cs)
      = processConns nodes parentId parentColor st cs := by
  rw [processConns_cons, h]

theorem processConns_cons_skip2 (nodes : List Node) (parentId : String)
    (parentColor : Option String) (st : BfsState) (c : Connector) (cs : List Connector)
    (childId : String) (h : childOf st.processed parentId c = some childId)
    (h2 : findNode nodes childId = none) :
    processConns nodes parentId parentColor st (c :: cs)
      = processConns nodes parentId parentColor st cs := by
  rw [processConns_cons, h]
  dsimp only
  rw [h2]

theorem processConns_cons_add (nodes : List Node) (parentId : String)
    (parentColor : Option String) (st : BfsState) (c : Connector) (cs : List Connector)
    (childId : String) (child : Node) (h : childOf st.processed parentId c = some childId)
    (h2 : findNode nodes childId = some child) :
    processConns nodes parentId parentColor st (c :: cs)
      = processConns nodes parentId parentColor
          { colors := setColor st.colors childId parentColor
            processed := childId :: st.processed
            queue := st.queue ++ [child] } cs := by
  rw [processConns_cons, h]
  dsimp only
  rw [h2]

theorem processConns_processed_mono (nodes : List Node) (parentId : String)
    (parentColor : Option String) (cs : List Connector) :
    ∀ st k, k ∈ st.processed →
      k ∈ (processConns nodes parentId parentColor st cs).processed := by
  induction cs with
  | nil => intro st k hk; exact hk
  | cons c cs ih =>
    intro st k hk
    cases hco : childOf st.processed parentId c with
    | none =>
      rw [processConns_cons_skip1 _ _ _ _ _ _ hco]
      exact ih st k hk
    | some childId =>
      cases hfn : findNode nodes childId with
      | none =>
        rw [processConns_cons_skip2 _ _ _ _ _ _ _ hco hfn]
        exact ih st k hk
      | some child =>
        rw [processConns_cons_add _ _ _ _ _ _ _ _ hco hfn]
        exact ih _ k (List.mem_cons_of_mem _ hk)

theorem processConns_colors_stable (nodes : List Node) (parentId : String)
    (parentColor : Option String) (cs : List Connector) :
    ∀ st k, k ∈ st.processed →
      (processConns nodes parentId parentColor st cs).colors k = st.colors k := by
  induction cs with
  | nil => intro st k hk; rfl
  | cons c cs ih =>
    intro st k hk
    cases hco : childOf st.processed parentId c with
    | none =>
      rw [processConns_cons_skip1 _ _ _ _ _ _ hco]
      exact ih st k hk
    | some childId =>
      cases hfn : findNode nodes childId with
      | none =>
        rw [processConns_cons_skip2 _ _ _ _ _ _ _ hco hfn]
        exact ih st k hk
      | some child =>
        rw [processConns_cons_add _ _ _ _ _ _ _ _ hco hfn]
        have hnotp := childOf_some_not_processed _ _ _ _ hco
        have hne : k ≠ childId := fun he => hnotp (he ▸ hk)
        rw [ih _ k (List.mem_cons_of_mem _ hk)]
        show setColor st.colors childId parentColor k = st.colors k
        unfold setColor
        rw [if_neg hne]

theorem processConns_queue_prefix (nodes : List Node) (parentId : String)
    (parentColor : Option String) (cs : List Connector) :
    ∀ st, ∃ tail,
      (processConns nodes parentId parentColor st cs).queue = st.queue ++ tail ∧
      ∀ n ∈ tail, n.id ∈ (processConns nodes parentId parentColor st cs).processed ∧
        n.id ∉ st.processed := by
  induction cs with
  | nil =>
    intro st
    refine ⟨[], ?_, by simp⟩
    rw [List.append_nil]
    rfl
  | cons c cs ih =>
    intro st
    cases hco : childOf st.processed parentId c with
    | none =>
      rw [processConns_cons_skip1 _ _ _ _ _ _ hco]
      exact ih st
    | some childId =>
      cases hfn : findNode nodes childId with
      | none =>
        rw [processConns_cons_skip2 _ _ _ _ _ _ _ hco hfn]
        exact ih st
      | some child =>
        rw [processConns_cons_add _ _ _ _ _ _ _ _ hco hfn]
        obtain ⟨tail, hq, htail⟩ := ih
          { colors := setColor st.colors childId parentColor
            processed := childId :: st.processed
            queue := st.queue ++ [child] }
        refine ⟨child :: tail, ?_, ?_⟩
        · rw [hq]; simp
        · intro n hn
          rcases List.mem_cons.mp hn with rfl | hn
          · have hcid := (findNode_eq_some_imp nodes childId n hfn).2
            constructor
            · rw [hcid]
              exact processConns_processed_mono _ _ _ _ _ _ (List.mem_cons_self _ _)
            · rw [hcid]
              exact childOf_some_not_processed _ _ _ _ hco
          · obtain ⟨h1, h2⟩ := htail n hn
            exact ⟨h1, fun hk => h2 (List.mem_cons_of_mem _ hk)⟩

theorem processConns_processed_new (nodes : List Node) (parentId : String)
    (parentColor : Option String) (cs : List Connector) :
    ∀ st k, k ∈ (processConns nodes parentId parentColor st cs).processed →
      k ∈ st.processed ∨
      (AdjVia cs parentId k ∧ Resolvable nodes k ∧
        (processConns nodes parentId parentColor st cs).colors k = parentColor ∧
        ∃ n ∈ (processConns nodes parentId parentColor st cs).queue, n.id = k) := by
  induction cs with
  | nil => intro st k hk; exact Or.inl hk
  | cons c cs ih =>
    intro st k hk
    cases hco : childOf st.processed parentId c with
    | none =>
      rw [processConns_cons_skip1 _ _ _ _ _ _ hco] at hk ⊢
      rcases ih st k hk with h | ⟨hadj, hres, hcol, hq⟩
      · exact Or.inl h
      · exact Or.inr ⟨(adjVia_cons_iff _ _ _ _).mpr (Or.inr hadj), hres, hcol, hq⟩
    | some childId =>
      cases hfn : findNode nodes childId with
      | none =>
        rw [processConns_cons_skip2 _ _ _ _ _ _ _ hco hfn] at hk ⊢
        rcases ih st k hk with h | ⟨hadj, hres, hcol, hq⟩
        · exact Or.inl h
        · exact Or.inr ⟨(adjVia_cons_iff _ _ _ _).mpr (Or.inr hadj), hres, hcol, hq⟩
      | some child =>
        rw [processConns_cons_add _ _ _ _ _ _ _ _ hco hfn] at hk ⊢
        rcases ih _ k hk with h | ⟨hadj, hres, hcol, hq⟩
        · rcases List.mem_cons.mp h with rfl | h
          · refine Or.inr ⟨?_, ?_, ?_, ?_⟩
            · refine (adjVia_cons_iff _ _ _ _).mpr (Or.inl ?_)
              rcases childOf_some_adj _ _ _ _ hco with ⟨h1, h2⟩ | ⟨h1, h2⟩
              · exact Or.inl ⟨h1, h2⟩
              · exact Or.inr ⟨h1, h2⟩
            · obtain ⟨hm, hid⟩ := findNode_eq_some_imp nodes k child hfn
              exact ⟨child, hm, hid⟩
            · rw [processConns_colors_stable _ _ _ _ _ _ (List.mem_cons_self _ _)]
              show setColor st.colors k parentColor k = parentColor
              unfold setColor
              rw [if_pos rfl]
            · obtain ⟨tail, hq2, -⟩ := processConns_queue_prefix nodes parentId parentColor cs
                { colors := setColor st.colors k parentColor
                  processed := k :: st.processed
                  queue := st.queue ++ [child] }
              refine ⟨child, ?_, (findNode_eq_some_imp nodes k child hfn).2⟩
              rw [hq2]
              simp
          · exact Or.inl h
        · exact Or.inr ⟨(adjVia_cons_iff _ _ _ _).mpr (Or.inr hadj), hres, hcol, hq⟩

theorem processConns_colors_cases (nodes : List Node) (parentId : String)
    (parentColor : Option String) (cs : List Connector) :
    ∀ st k,
      (processConns nodes parentId parentColor st cs).colors k = st.colors k ∨
      ((processConns nodes parentId parentColor st cs).colors k = parentColor ∧
        AdjVia cs parentId k ∧ k ∉ st.processed ∧
        k ∈ (processConns nodes parentId parentColor st cs).processed) := by
  induction cs with
  | nil => intro st k; exact Or.inl rfl
  | cons c cs ih =>
    intro st k
    cases hco : childOf st.processed parentId c with
    | none =>
      rw [processConns_cons_skip1 _ _ _ _ _ _ hco]
      rcases ih st k with h | ⟨h1, h2, h3, h4⟩
      · exact Or.inl h
      · exact Or.inr ⟨h1, (adjVia_cons_iff _ _ _ _).mpr (Or.inr h2), h3, h4⟩
    | some childId =>
      cases hfn : findNode nodes childId with
      | none =>
        rw [processConns_cons_skip2 _ _ _ _ _ _ _ hco hfn]
        rcases ih st k with h | ⟨h1, h2, h3, h4⟩
        · exact Or.inl h
        · exact Or.inr ⟨h1, (adjVia_cons_iff _ _ _ _).mpr (Or.inr h2), h3, h4⟩
      | some child =>
        rw [processConns_cons_add _ _ _ _ _ _ _ _ hco hfn]
        by_cases hk : k = childId
        · subst hk
          refine Or.inr ⟨?_, ?_, ?_, ?_⟩
          · rw [processConns_colors_stable _ _ _ _ _ _ (List.mem_cons_self _ _)]
            show setColor st.colors k parentColor k = parentColor
            unfold setColor
            rw [if_pos rfl]
          · refine (adjVia_cons_iff _ _ _ _).mpr (Or.inl ?_)
            rcases childOf_some_adj _ _ _ _ hco with ⟨h1, h2⟩ | ⟨h1, h2⟩
            · exact Or.inl ⟨h1, h2⟩
            · exact Or.inr ⟨h1, h2⟩
          · exact childOf_some_not_processed _ _ _ _ hco
          · exact processConns_processed_mono _ _ _ _ _ _ (List.mem_cons_self _ _)
        · rcases ih (BfsState.mk (setColor st.colors childId parentColor)
              (childId :: st.processed) (st.queue ++ [child])) k with h | ⟨h1, h2, h3, h4⟩
          · left
            rw [h]
            show setColor st.colors childId parentColor k = st.colors k
            unfold setColor
            rw [if_neg hk]
          · refine Or.inr ⟨h1, (adjVia_cons_iff _ _ _ _).mpr (Or.inr h2), ?_, h4⟩
            intro hkp
            exact h3 (List.mem_cons_of_mem _ hkp)

theorem processConns_closure (nodes : List Node) (parentId : String)
    (parentColor : Option String) (cs : List Connector) :
    ∀ st, parentId ∈ st.processed →
      ∀ x, AdjVia cs parentId x → Resolvable nodes x →
        x ∈ (processConns nodes parentId parentColor st cs).processed := by
  induction cs with
  | nil =>
    intro st hp x hadj hres
    exact absurd hadj (by simp [AdjVia])
  | cons c cs ih =>
    intro st hp x hadj hres
    rcases (adjVia_cons_iff c cs parentId x).mp hadj with hvc | hvcs
    · cases hco : childOf st.processed parentId c with
      | none =>
        rw [processConns_cons_skip1 _ _ _ _ _ _ hco]
        obtain ⟨hn1, hn2⟩ := (childOf_eq_none_iff _ _ _).mp hco
        have hx : x ∈ st.processed := by
          rcases hvc with ⟨hf, ht⟩ | ⟨ht, hf⟩
          · by_cases hxp : c.toId ∈ st.processed
            · rw [← ht]; exact hxp
            · exact absurd ⟨hf, hxp⟩ hn2
          · by_cases hxp : c.fromId ∈ st.processed
            · rw [← hf]; exact hxp
            · exact absurd ⟨ht, hxp⟩ hn1
        exact processConns_processed_mono _ _ _ _ _ _ hx
      | some childId =>
        cases hfn : findNode nodes childId with
        | none =>
          rw [processConns_cons_skip2 _ _ _ _ _ _ _ hco hfn]
          have hx : x ∈ st.processed := by
            rcases (childOf_eq_some_iff _ _ _ _).mp hco with
              ⟨⟨ht, hnp⟩, hfk⟩ | ⟨hneg, ⟨hf, hnp⟩, htk⟩
            · rcases hvc with ⟨hf2, ht2⟩ | ⟨ht2, hf2⟩
              · rw [← ht2, ht]; exact hp
              · obtain ⟨n, hfx⟩ := findNode_of_resolvable nodes x hres
                rw [← hf2, hfk, hfn] at hfx
                exact absurd hfx (by simp)
            · rcases hvc with ⟨hf2, ht2⟩ | ⟨ht2, hf2⟩
              · obtain ⟨n, hfx⟩ := findNode_of_resolvable nodes x hres
                rw [← ht2, htk, hfn] at hfx
                exact absurd hfx (by simp)
              · by_cases hxp : c.fromId ∈ st.processed
                · rw [← hf2]; exact hxp
                · exact absurd ⟨ht2, hxp⟩ hneg
          exact processConns_processed_mono _ _ _ _ _ _ hx
        | some child =>
          rw [processConns_cons_add _ _ _ _ _ _ _ _ hco hfn]
          have hx : x ∈ childId :: st.processed := by
            rcases (childOf_eq_some_iff _ _ _ _).mp hco with
              ⟨⟨ht, hnp⟩, hfk⟩ | ⟨hneg, ⟨hf, hnp⟩, htk⟩
            · rcases hvc with ⟨hf2, ht2⟩ | ⟨ht2, hf2⟩
              · refine List.mem_cons_of_mem _ ?_
                rw [← ht2, ht]; exact hp
              · have hxc : x = childId := by rw [← hf2, hfk]
                rw [hxc]; exact List.mem_cons_self _ _
            · rcases hvc with ⟨hf2, ht2⟩ | ⟨ht2, hf2⟩
              · have hxc : x = childId := by rw [← ht2, htk]
                rw [hxc]; exact List.mem_cons_self _ _
              · by_cases hxp : c.fromId ∈ st.processed
                · refine List.mem_cons_of_mem _ ?_
                  rw [← hf2]; exact hxp
                · exact absurd ⟨ht2, hxp⟩ hneg
          exact processConns_processed_mono _ _ _ _ _ _ hx
    · cases hco : childOf st.processed parentId c with
      | none =>
        rw [processConns_cons_skip1 _ _ _ _ _ _ hco]
        exact ih st hp x hvcs hres
      | some childId =>
        cases hfn : findNode nodes childId with
        | none =>
          rw [processConns_cons_skip2 _ _ _ _ _ _ _ hco hfn]
          exact ih st hp x hvcs hres
        | some child =>
          rw [processConns_cons_add _ _ _ _ _ _ _ _ hco hfn]
          exact ih _ (List.mem_cons_of_mem _ hp) x hvcs hres

theorem processConns_measure (nodes : List Node) (parentId : String)
    (parentColor : Option String) (cs : List Connector) :
    ∀ st, unproc nodes (processConns nodes parentId parentColor st cs).processed +
        (processConns nodes parentId parentColor st cs).queue.length
      = unproc nodes st.processed + st.queue.length := by
  induction cs with
  | nil => intro st; rfl
  | cons c cs ih =>
    intro st
    cases hco : childOf st.processed parentId c with
    | none =>
      rw [processConns_cons_skip1 _ _ _ _ _ _ hco]
      exact ih st
    | some childId =>
      cases hfn : findNode nodes childId with
      | none =>
        rw [processConns_cons_skip2 _ _ _ _ _ _ _ hco hfn]
        exact ih st
      | some child =>
        rw [processConns_cons_add _ _ _ _ _ _ _ _ hco hfn]
        rw [ih { colors := setColor st.colors childId parentColor
                 processed := childId :: st.processed
                 queue := st.queue ++ [child] }]
        have h1 : childId ∈ nodes.map Node.id := by
          obtain ⟨hm, hid⟩ := findNode_eq_some_imp nodes childId child hfn
          exact List.mem_map.mpr ⟨child, hm, hid⟩
        have h2 := childOf_some_not_processed _ _ _ _ hco
        have h3 := unproc_cons_of nodes st.processed childId h1 h2
        show unproc nodes (childId :: st.processed) + (st.queue ++ [child]).length
          = unproc nodes st.processed + st.queue.length
        simp only [List.length_append, List.length_cons, List.length_nil]
        omega

theorem bfsLoop_zero (nodes : List Node) (connectors : List Connector) (st : BfsState) :
    bfsLoop nodes connectors 0 st = st := rfl

theorem bfsLoop_succ_eq (nodes : List Node) (connectors : List Connector)
    (fuel : Nat) (st : BfsState) :
    bfsLoop nodes connectors (fuel + 1) st =
      match st.queue with
      | [] => st
      | parent :: rest =>
        bfsLoop nodes connectors fuel
          (processConns nodes parent.id (st.colors parent.id)
            { st with queue := rest } connectors) := rfl

theorem bfsLoop_succ_nil (nodes : List Node) (connectors : List Connector)
    (fuel : Nat) (st : BfsState) (h : st.queue = []) :
    bfsLoop nodes connectors (fuel + 1) st = st := by
  rw [bfsLoop_succ_eq, h]

theorem bfsLoop_succ_cons (nodes : List Node) (connectors : List Connector)
    (fuel : Nat) (st : BfsState) (parent : Node) (rest : List Node)
    (h : st.queue = parent :: rest) :
    bfsLoop nodes connectors (fuel + 1) st =
      bfsLoop nodes connectors fuel
        (processConns nodes parent.id (st.colors parent.id)
          { st with queue := rest } connectors) := by
  rw [bfsLoop_succ_eq, h]

theorem bfsInv_step (connectors : List Connector) (nodes : List Node) (rootId : String)
    (l1ids : List String) (st : BfsState) (parent : Node) (rest : List Node)
    (hq : st.queue = parent :: rest)
    (hinv : BfsInv connectors nodes rootId l1ids st) :
    BfsInv connectors nodes rootId l1ids
      (processConns nodes parent.id (st.colors parent.id)
        { st with queue := rest } connectors) := by
  obtain ⟨i1, i2, i3, i4, i5, i6, i7, i8, i9⟩ := hinv
  have hpq : parent ∈ st.queue := by rw [hq]; exact List.mem_cons_self _ _
  have hparent : parent.id ∈ st.processed := i1 parent hpq
  have hpar_ne : parent.id ≠ rootId := i3 parent hpq
  have hpc : st.colors parent.id ≠ none := i5 parent.id hparent hpar_ne
  obtain ⟨tail, hqR, htail⟩ := processConns_queue_prefix nodes parent.id
    (st.colors parent.id) connectors { st with queue := rest }
  refine ⟨?_, ?_, ?_, ?_, ?_, ?_, ?_, ?_, ?_⟩
  · intro n hn
    rw [hqR] at hn
    rcases List.mem_append.mp hn with hn | hn
    · have hmem : n.id ∈ st.processed := i1 n (by rw [hq]; exact List.mem_cons_of_mem _ hn)
      exact processConns_processed_mono _ _ _ _ _ _ hmem
    · exact (htail n hn).1
  · exact processConns_processed_mono _ _ _ _ _ _ i2
  · intro n hn
    rw [hqR] at hn
    rcases List.mem_append.mp hn with hn | hn
    · exact i3 n (by rw [hq]; exact List.mem_cons_of_mem _ hn)
    · intro he
      exact (htail n hn).2 (by rw [he]; exact i2)
  · rw [processConns_colors_stable nodes parent.id (st.colors parent.id) connectors
      { st with queue := rest } rootId i2]
    exact i4
  · intro k hk hkne
    rcases processConns_processed_new _ _ _ _ _ k hk with h | ⟨-, -, hcol, -⟩
    · rw [processConns_colors_stable _ _ _ _ _ _ h]
      exact i5 k h hkne
    · rw [hcol]
      exact hpc
  · intro k hk hknq x hadj hres
    rcases processConns_processed_new _ _ _ _ _ k hk with h | ⟨-, -, -, n, hnq, hnid⟩
    · by_cases hkp : k = parent.id
      · subst hkp
        exact processConns_closure nodes parent.id (st.colors parent.id) connectors
          { st with queue := rest } hparent x hadj hres
      · have hnotq : ∀ n ∈ st.queue, n.id ≠ k := by
          intro n hn
          rw [hq] at hn
          rcases List.mem_cons.mp hn with rfl | hn
          · exact fun he => hkp he.symm
          · intro he
            refine hknq n ?_ he
            rw [hqR]
            exact List.mem_append_left _ hn
        have hcl := i6 k h hnotq x hadj hres
        exact processConns_processed_mono _ _ _ _ _ _ hcl
    · exact absurd hnid (hknq n hnq)
  · intro k hck
    rcases processConns_colors_cases nodes parent.id (st.colors parent.id) connectors
      { st with queue := rest } k with h | ⟨-, -, -, h3⟩
    · rw [h] at hck
      exact processConns_processed_mono _ _ _ _ _ _ (i7 k hck)
    · exact h3
  · intro k hck
    rcases processConns_colors_cases nodes parent.id (st.colors parent.id) connectors
      { st with queue := rest } k with h | ⟨h1, h2, -, h3⟩
    · rw [h] at hck
      rcases i8 k hck with hl | ⟨j, hadj, hcolj, hjp⟩
      · exact Or.inl hl
      · refine Or.inr ⟨j, hadj, ?_, processConns_processed_mono _ _ _ _ _ _ hjp⟩
        rw [processConns_colors_stable nodes parent.id (st.colors parent.id) connectors
          { st with queue := rest } j hjp, h, hcolj]
    · refine Or.inr ⟨parent.id, h2, ?_, processConns_processed_mono _ _ _ _ _ _ hparent⟩
      rw [processConns_colors_stable nodes parent.id (st.colors parent.id) connectors
        { st with queue := rest } parent.id hparent, h1]
  · intro k hk
    rcases processConns_processed_new _ _ _ _ _ k hk with h | ⟨hadj, hres, -, -⟩
    · exact i9 k h
    · exact Relation.ReflTransGen.tail (i9 parent.id hparent) ⟨hadj, hres⟩

theorem bfsLoop_inv (connectors : List Connector) (nodes : List Node) (rootId : String)
    (l1ids : List String) :
    ∀ fuel st, BfsInv connectors nodes rootId l1ids st →
      BfsInv connectors nodes rootId l1ids (bfsLoop nodes connectors fuel st) := by
  intro fuel
  induction fuel with
  | zero => intro st h; exact h
  | succ fuel ih =>
    intro st h
    cases hq : st.queue with
    | nil =>
      rw [bfsLoop_succ_nil _ _ _ _ hq]
      exact h
    | cons parent rest =>
      rw [bfsLoop_succ_cons _ _ _ _ _ _ hq]
      exact ih _ (bfsInv_step connectors nodes rootId l1ids st parent rest hq h)

theorem bfsLoop_stable (nodes : List Node) (connectors : List Connector) :
    ∀ fuel st k, k ∈ st.processed →
      (bfsLoop nodes connectors fuel st).colors k = st.colors k ∧
      k ∈ (bfsLoop nodes connectors fuel st).processed := by
  intro fuel
  induction fuel with
  | zero => intro st k hk; exact ⟨rfl, hk⟩
  | succ fuel ih =>
    intro st k hk
    cases hq : st.queue with
    | nil =>
      rw [bfsLoop_succ_nil _ _ _ _ hq]
      exact ⟨rfl, hk⟩
    | cons parent rest =>
      rw [bfsLoop_succ_cons _ _ _ _ _ _ hq]
      have h1 := processConns_colors_stable nodes parent.id (st.colors parent.id)
        connectors { st with queue := rest } k hk
      have h2 := processConns_processed_mono nodes parent.id (st.colors parent.id)
        connectors { st with queue := rest } k hk
      obtain ⟨ha, hb⟩ := ih _ k h2
      exact ⟨by rw [ha, h1], hb⟩

theorem bfsLoop_halts (nodes : List Node) (connectors : List Connector) :
    ∀ fuel st, unproc nodes st.processed + st.queue.length ≤ fuel →
      (bfsLoop nodes connectors fuel st).queue = [] := by
  intro fuel
  induction fuel with
  | zero =>
    intro st hm
    have h0 : st.queue.length = 0 := by omega
    rw [bfsLoop_zero]
    exact List.length_eq_zero.mp h0
  | succ fuel ih =>
    intro st hm
    cases hq : st.queue with
    | nil =>
      rw [bfsLoop_succ_nil _ _ _ _ hq]
      exact hq
    | cons parent rest =>
      rw [bfsLoop_succ_cons _ _ _ _ _ _ hq]
      apply ih
      have hmeq := processConns_measure nodes parent.id (st.colors parent.id)
        connectors { st with queue := rest }
      have hql : st.queue.length = rest.length + 1 := by rw [hq]; rfl
      dsimp only at hmeq
      omega

theorem assignPalette_processed (l : List Node) :
    ∀ colors processed idx,
      (assignPalette colors processed idx l).2 = (l.map Node.id).reverse ++ processed := by
  induction l with
  | nil => intro colors processed idx; simp [assignPalette]
  | cons n rest ih =>
    intro colors processed idx
    simp only [assignPalette]
    rw [ih]
    simp [List.reverse_cons, List.append_assoc]

theorem assignPalette_untouched (l : List Node) :
    ∀ colors processed idx k, k ∉ l.map Node.id →
      (assignPalette colors processed idx l).1 k = colors k := by
  induction l with
  | nil => intro colors processed idx k hk; rfl
  | cons n rest ih =>
    intro colors processed idx k hk
    simp only [List.map_cons, List.mem_cons, not_or] at hk
    obtain ⟨hk1, hk2⟩ := hk
    simp only [assignPalette]
    rw [ih _ _ _ k hk2]
    unfold setColor
    rw [if_neg hk1]

theorem assignPalette_colored (l : List Node) :
    ∀ colors processed idx k, k ∈ l.map Node.id →
      ∃ s, (assignPalette colors processed idx l).1 k = some s := by
  induction l with
  | nil => intro colors processed idx k hk; exact absurd hk (by simp)
  | cons n rest ih =>
    intro colors processed idx k hk
    simp only [assignPalette]
    by_cases hk2 : k ∈ rest.map Node.id
    · exact ih _ _ _ k hk2
    · have hk1 : k = n.id := by
        simp only [List.map_cons, List.mem_cons] at hk
        tauto
      refine ⟨MIND_MAP_PALETTE.getD (idx % MIND_MAP_PALETTE.length) "", ?_⟩
      rw [assignPalette_untouched rest _ _ _ k hk2]
      subst hk1
      unfold setColor
      rw [if_pos rfl]

theorem assignPalette_values (l : List Node) :
    ∀ colors processed idx, (l.map Node.id).Nodup →
      ∀ i (h : i < l.length),
        (assignPalette colors processed idx l).1 (l.get ⟨i, h⟩).id
          = some (MIND_MAP_PALETTE.getD ((idx + i) % MIND_MAP_PALETTE.length) "") := by
  induction l with
  | nil => intro colors processed idx hnd i h; exact absurd h (by simp)
  | cons n rest ih =>
    intro colors processed idx hnd i h
    simp only [List.map_cons, List.nodup_cons] at hnd
    obtain ⟨hnotin, hnd2⟩ := hnd
    cases i with
    | zero =>
      have hget : ((n :: rest).get ⟨0, h⟩) = n := rfl
      rw [hget]
      simp only [assignPalette]
      rw [assignPalette_untouched rest _ _ _ n.id hnotin]
      unfold setColor
      rw [if_pos rfl]
      simp
    | succ i =>
      have hb : i < rest.length := by simp only [List.length_cons] at h; omega
      have hget : ((n :: rest).get ⟨i + 1, h⟩) = rest.get ⟨i, hb⟩ := rfl
      rw [hget]
      simp only [assignPalette]
      rw [ih _ _ _ hnd2 i hb]
      have harith : idx + 1 + i = idx + (i + 1) := by omega
      rw [harith]

theorem level1_cons_eq (nodes : List Node) (rootId : String) (c : Connector)
    (cs : List Connector) :
    level1Nodes nodes rootId (c :: cs) =
      if c.fromId = rootId then
        (match findNode nodes c.toId with
         | some t => [t]
         | none => []) ++ level1Nodes nodes rootId cs
      else if c.toId = rootId then
        (match findNode nodes c.fromId with
         | some s => [s]
         | none => []) ++ level1Nodes nodes rootId cs
      else level1Nodes nodes rootId cs := rfl

theorem level1_cons_from_some (nodes : List Node) (rootId : String) (c : Connector)
    (cs : List Connector) (t : Node) (h1 : c.fromId = rootId)
    (h2 : findNode nodes c.toId = some t) :
    level1Nodes nodes rootId (c :: cs) = t :: level1Nodes nodes rootId cs := by
  rw [level1_cons_eq, if_pos h1, h2]
  rfl

theorem level1_cons_from_none (nodes : List Node) (rootId : String) (c : Connector)
    (cs : List Connector) (h1 : c.fromId = rootId)
    (h2 : findNode nodes c.toId = none) :
    level1Nodes nodes rootId (c :: cs) = level1Nodes nodes rootId cs := by
  rw [level1_cons_eq, if_pos h1, h2]
  rfl

theorem level1_cons_to_some (nodes : List Node) (rootId : String) (c : Connector)
    (cs : List Connector) (t : Node) (h1 : ¬ c.fromId = rootId) (h2 : c.toId = rootId)
    (h3 : findNode nodes c.fromId = some t) :
    level1Nodes nodes rootId (c :: cs) = t :: level1Nodes nodes rootId cs := by
  rw [level1_cons_eq, if_neg h1, if_pos h2, h3]
  rfl

theorem level1_cons_to_none (nodes : List Node) (rootId : String) (c : Connector)
    (cs : List Connector) (h1 : ¬ c.fromId = rootId) (h2 : c.toId = rootId)
    (h3 : findNode nodes c.fromId = none) :
    level1Nodes nodes rootId (c :: cs) = level1Nodes nodes rootId cs := by
  rw [level1_cons_eq, if_neg h1, if_pos h2, h3]
  rfl

theorem level1_cons_skip (nodes : List Node) (rootId : String) (c : Connector)
    (cs : List Connector) (h1 : ¬ c.fromId = rootId) (h2 : ¬ c.toId = rootId) :
    level1Nodes nodes rootId (c :: cs) = level1Nodes nodes rootId cs := by
  rw [level1_cons_eq, if_neg h1, if_neg h2]

theorem level1_mem_imp (nodes : List Node) (rootId : String) :
    ∀ cs, ∀ n ∈ level1Nodes nodes rootId cs,
      AdjVia cs rootId n.id ∧ n ∈ nodes := by
  intro cs
  induction cs with
  | nil => intro n hn; exact absurd hn (by simp [level1Nodes])
  | cons c cs ih =>
    intro n hn
    by_cases h1 : c.fromId = rootId
    · cases hfn : findNode nodes c.toId with
      | none =>
        rw [level1_cons_from_none nodes rootId c cs h1 hfn] at hn
        obtain ⟨hadj, hmem⟩ := ih n hn
        exact ⟨(adjVia_cons_iff _ _ _ _).mpr (Or.inr hadj), hmem⟩
      | some t =>
        rw [level1_cons_from_some nodes rootId c cs t h1 hfn] at hn
        rcases List.mem_cons.mp hn with rfl | hn
        · obtain ⟨hmem, hid⟩ := findNode_eq_some_imp nodes c.toId n hfn
          exact ⟨(adjVia_cons_iff _ _ _ _).mpr (Or.inl (Or.inl ⟨h1, hid.symm⟩)), hmem⟩
        · obtain ⟨hadj, hmem⟩ := ih n hn
          exact ⟨(adjVia_cons_iff _ _ _ _).mpr (Or.inr hadj), hmem⟩
    · by_cases h2 : c.toId = rootId
      · cases hfn : findNode nodes c.fromId with
        | none =>
          rw [level1_cons_to_none nodes rootId c cs h1 h2 hfn] at hn
          obtain ⟨hadj, hmem⟩ := ih n hn
          exact ⟨(adjVia_cons_iff _ _ _ _).mpr (Or.inr hadj), hmem⟩
        | some t =>
          rw [level1_cons_to_some nodes rootId c cs t h1 h2 hfn] at hn
          rcases List.mem_cons.mp hn with rfl | hn
          · obtain ⟨hmem, hid⟩ := findNode_eq_some_imp nodes c.fromId n hfn
            exact ⟨(adjVia_cons_iff _ _ _ _).mpr (Or.inl (Or.inr ⟨h2, hid.symm⟩)), hmem⟩
          · obtain ⟨hadj, hmem⟩ := ih n hn
            exact ⟨(adjVia_cons_iff _ _ _ _).mpr (Or.inr hadj), hmem⟩
      · rw [level1_cons_skip nodes rootId c cs h1 h2] at hn
        obtain ⟨hadj, hmem⟩ := ih n hn
        exact ⟨(adjVia_cons_iff _ _ _ _).mpr (Or.inr hadj), hmem⟩

theorem level1_complete (nodes : List Node) (rootId : String) :
    ∀ cs x, AdjVia cs rootId x → Resolvable nodes x →
      x ∈ (level1Nodes nodes rootId cs).map Node.id := by
  intro cs
  induction cs with
  | nil => intro x hadj hres; exact absurd hadj (by simp [AdjVia])
  | cons c cs ih =>
    intro x hadj hres
    rcases (adjVia_cons_iff c cs rootId x).mp hadj with hvc | hvcs
    · rcases hvc with ⟨hf, ht⟩ | ⟨ht, hf⟩
      · obtain ⟨t, hft⟩ := findNode_of_resolvable nodes c.toId (by rw [ht]; exact hres)
        rw [level1_cons_from_some nodes rootId c cs t hf hft]
        have hx : t.id = x := by
          rw [(findNode_eq_some_imp nodes c.toId t hft).2, ht]
        rw [List.map_cons]
        exact List.mem_cons.mpr (Or.inl hx.symm)
      · by_cases h1 : c.fromId = rootId
        · have hcx : c.toId = x := by rw [ht, ← h1, hf]
          obtain ⟨t, hft⟩ := findNode_of_resolvable nodes c.toId (by rw [hcx]; exact hres)
          rw [level1_cons_from_some nodes rootId c cs t h1 hft]
          have hx : t.id = x := by rw [(findNode_eq_some_imp nodes c.toId t hft).2, hcx]
          rw [List.map_cons]
          exact List.mem_cons.mpr (Or.inl hx.symm)
        · obtain ⟨t, hft⟩ := findNode_of_resolvable nodes c.fromId (by rw [hf]; exact hres)
          rw [level1_cons_to_some nodes rootId c cs t h1 ht hft]
          have hx : t.id = x := by rw [(findNode_eq_some_imp nodes c.fromId t hft).2, hf]
          rw [List.map_cons]
          exact List.mem_cons.mpr (Or.inl hx.symm)
    · have hsub := ih x hvcs hres
      by_cases h1 : c.fromId = rootId
      · cases hfn : findNode nodes c.toId with
        | none => rw [level1_cons_from_none nodes rootId c cs h1 hfn]; exact hsub
        | some t =>
          rw [level1_cons_from_some nodes rootId c cs t h1 hfn, List.map_cons]
          exact List.mem_cons_of_mem _ hsub
      · by_cases h2 : c.toId = rootId
        · cases hfn : findNode nodes c.fromId with
          | none => rw [level1_cons_to_none nodes rootId c cs h1 h2 hfn]; exact hsub
          | some t =>
            rw [level1_cons_to_some nodes rootId c cs t h1 h2 hfn, List.map_cons]
            exact List.mem_cons_of_mem _ hsub
        · rw [level1_cons_skip nodes rootId c cs h1 h2]; exact hsub

theorem bfsInv_initial (connectors : List Connector) (nodes : List Node) (root : Node)
    (hself : root.id ∉ (level1Nodes nodes root.id connectors).map Node.id) :
    BfsInv connectors nodes root.id ((level1Nodes nodes root.id connectors).map Node.id)
      { colors := (assignPalette (fun _ => none) [root.id] 0
          (level1Nodes nodes root.id connectors)).1,
        processed := (assignPalette (fun _ => none) [root.id] 0
          (level1Nodes nodes root.id connectors)).2,
        queue := level1Nodes nodes root.id connectors } := by
  have hproc : ∀ k, k ∈ (assignPalette (fun _ => none) [root.id] 0
      (level1Nodes nodes root.id connectors)).2 ↔
      k ∈ (level1Nodes nodes root.id connectors).map Node.id ∨ k = root.id := by
    intro k
    rw [assignPalette_processed]
    simp
  unfold BfsInv
  dsimp only
  refine ⟨?_, ?_, ?_, ?_, ?_, ?_, ?_, ?_, ?_⟩
  · intro n hn
    exact (hproc n.id).mpr (Or.inl (List.mem_map_of_mem _ hn))
  · exact (hproc root.id).mpr (Or.inr rfl)
  · intro n hn he
    exact hself (List.mem_map.mpr ⟨n, hn, he⟩)
  · exact assignPalette_untouched _ _ _ _ _ hself
  · intro k hk hkne
    rcases (hproc k).mp hk with hk1 | hk1
    · obtain ⟨s, hs⟩ := assignPalette_colored _ _ _ _ k hk1
      rw [hs]
      simp
    · exact absurd hk1 hkne
  · intro k hk hknq x hadj hres
    have hkroot : k = root.id := by
      rcases (hproc k).mp hk with hk1 | hk1
      · obtain ⟨n, hn, hnid⟩ := List.mem_map.mp hk1
        exact absurd hnid (hknq n hn)
      · exact hk1
    subst hkroot
    have hx := level1_complete nodes root.id connectors x hadj hres
    exact (hproc x).mpr (Or.inl hx)
  · intro k hck
    by_cases hk1 : k ∈ (level1Nodes nodes root.id connectors).map Node.id
    · exact (hproc k).mpr (Or.inl hk1)
    · rw [assignPalette_untouched _ _ _ _ k hk1] at hck
      exact absurd rfl hck
  · intro k hck
    by_cases hk1 : k ∈ (level1Nodes nodes root.id connectors).map Node.id
    · exact Or.inl hk1
    · rw [assignPalette_untouched _ _ _ _ k hk1] at hck
      exact absurd rfl hck
  · intro k hk
    rcases (hproc k).mp hk with hk1 | hk1
    · obtain ⟨n, hn, hnid⟩ := List.mem_map.mp hk1
      obtain ⟨hadj, hmem⟩ := level1_mem_imp nodes root.id connectors n hn
      refine Relation.ReflTransGen.single ⟨?_, ?_⟩
      · rw [← hnid]
        exact hadj
      · exact ⟨n, hmem, hnid⟩
    · rw [hk1]
      exact Relation.ReflTransGen.refl

theorem find?_congr_on {α : Type} (p q : α → Bool) :
    ∀ l : List α, (∀ x ∈ l, p x = q x) → List.find? p l = List.find? q l := by
  intro l
  induction l with
  | nil => intro h; rfl
  | cons a l ih =>
    intro h
    have ha := h a (List.mem_cons_self a l)
    by_cases hp : p a = true
    · rw [List.find?_cons_of_pos _ hp, List.find?_cons_of_pos _ (ha ▸ hp)]
    · have hq : ¬ q a = true := by rw [← ha]; exact hp
      rw [List.find?_cons_of_neg _ hp, List.find?_cons_of_neg _ hq]
      exact ih (fun x hx => h x (List.mem_cons_of_mem _ hx))

theorem rootScan_nil (cx cy : ℚ) (b : Node) (bestD : ℚ) :
    rootScan cx cy b bestD [] = b := rfl

theorem rootScan_cons_eq (cx cy : ℚ) (b n : Node) (bestD : ℚ) (rest : List Node) :
    rootScan cx cy b bestD (n :: rest) =
      if dist2 cx cy n < bestD then rootScan cx cy n (dist2 cx cy n) rest
      else rootScan cx cy b bestD rest := rfl

theorem findq_cons_pos {α : Type} (p : α → Bool) (a : α) (l : List α) (h : p a = true) :
    List.find? p (a :: l) = some a := List.find?_cons_of_pos l h

theorem findq_cons_neg {α : Type} (p : α → Bool) (a : α) (l : List α) (h : ¬ p a = true) :
    List.find? p (a :: l) = List.find? p l := List.find?_cons_of_neg l h

theorem rootScan_finds (cx cy : ℚ) :
    ∀ (l : List Node) (b : Node),
      (b :: l).find? (fun n => decide (∀ m ∈ b :: l, dist2 cx cy n ≤ dist2 cx cy m))
        = some (rootScan cx cy b (dist2 cx cy b) l) := by
  intro l
  induction l with
  | nil =>
    intro b
    rw [findq_cons_pos (fun y => decide (∀ m ∈ b :: ([] : List Node),
      dist2 cx cy y ≤ dist2 cx cy m)) b [] (by simp)]
    rfl
  | cons n rest ih =>
    intro b
    by_cases hlt : dist2 cx cy n < dist2 cx cy b
    · have hbfail : ¬ ((fun y => decide (∀ m ∈ b :: n :: rest,
          dist2 cx cy y ≤ dist2 cx cy m)) b = true) := by
        simp only [decide_eq_true_eq]
        intro hall
        have hn := hall n (by simp)
        linarith
      rw [findq_cons_neg (fun y => decide (∀ m ∈ b :: n :: rest,
        dist2 cx cy y ≤ dist2 cx cy m)) b (n :: rest) hbfail]
      have hcongr : ∀ x ∈ n :: rest,
          (fun y => decide (∀ m ∈ b :: n :: rest, dist2 cx cy y ≤ dist2 cx cy m)) x
            = (fun y => decide (∀ m ∈ n :: rest, dist2 cx cy y ≤ dist2 cx cy m)) x := by
        intro x hx
        rw [decide_eq_decide]
        constructor
        · intro hall m hm
          exact hall m (List.mem_cons_of_mem _ hm)
        · intro hall m hm
          rcases List.mem_cons.mp hm with rfl | hm
          · have hxn := hall n (List.mem_cons_self _ _)
            linarith
          · exact hall m hm
      rw [find?_congr_on _ _ _ hcongr, ih n, rootScan_cons_eq, if_pos hlt]
    · have hble : dist2 cx cy b ≤ dist2 cx cy n := le_of_not_lt hlt
      rw [rootScan_cons_eq, if_neg hlt, ← ih b]
      by_cases hb : ∀ m ∈ b :: n :: rest, dist2 cx cy b ≤ dist2 cx cy m
      · have hb2 : ∀ m ∈ b :: rest, dist2 cx cy b ≤ dist2 cx cy m := by
          intro m hm
          rcases List.mem_cons.mp hm with rfl | hm
          · exact le_refl _
          · exact hb m (List.mem_cons_of_mem _ (List.mem_cons_of_mem _ hm))
        rw [findq_cons_pos (fun y => decide (∀ m ∈ b :: n :: rest,
            dist2 cx cy y ≤ dist2 cx cy m)) b (n :: rest) (by simpa using hb),
          findq_cons_pos (fun y => decide (∀ m ∈ b :: rest,
            dist2 cx cy y ≤ dist2 cx cy m)) b rest (by simpa using hb2)]
      · have hbmed : ¬ ∀ m ∈ b :: rest, dist2 cx cy b ≤ dist2 cx cy m := by
          intro hmed
          apply hb
          intro m hm
          rcases List.mem_cons.mp hm with rfl | hm
          · exact le_refl _
          · rcases List.mem_cons.mp hm with rfl | hm
            · exact hble
            · exact hmed m (List.mem_cons_of_mem _ hm)
        have hnfail : ¬ ∀ m ∈ b :: n :: rest, dist2 cx cy n ≤ dist2 cx cy m := by
          intro hall
          apply hb
          intro m hm
          exact le_trans hble (hall m hm)
        rw [findq_cons_neg (fun y => decide (∀ m ∈ b :: n :: rest,
            dist2 cx cy y ≤ dist2 cx cy m)) b (n :: rest) (by simpa using hb),
          findq_cons_neg (fun y => decide (∀ m ∈ b :: n :: rest,
            dist2 cx cy y ≤ dist2 cx cy m)) n rest (by simpa using hnfail),
          findq_cons_neg (fun y => decide (∀ m ∈ b :: rest,
            dist2 cx cy y ≤ dist2 cx cy m)) b rest (by simpa using hbmed)]
        apply find?_congr_on
        intro x hx
        rw [decide_eq_decide]
        constructor
        · intro hall m hm
          rcases List.mem_cons.mp hm with rfl | hm
          · exact hall m (List.mem_cons_self _ _)
          · exact hall m (List.mem_cons_of_mem _ (List.mem_cons_of_mem _ hm))
        · intro hall m hm
          rcases List.mem_cons.mp hm with rfl | hm
          · exact hall m (List.mem_cons_self _ _)
          · rcases List.mem_cons.mp hm with rfl | hm
            · exact le_trans (hall b (List.mem_cons_self _ _)) hble
            · exact hall m (List.mem_cons_of_mem _ hm)

theorem findRoot_eq_specRoot (cx cy : ℚ) (nodes : List Node) :
    findRoot cx cy nodes = specRoot cx cy nodes := by
  cases nodes with
  | nil => rfl
  | cons b l =>
    unfold findRoot specRoot
    exact (rootScan_finds cx cy l b).symm

theorem level1_mem_iff (nodes : List Node) (rootId : String) :
    ∀ cs n, n ∈ level1Nodes nodes rootId cs ↔
      ∃ c ∈ cs, (c.fromId = rootId ∧ findNode nodes c.toId = some n) ∨
        (¬ c.fromId = rootId ∧ c.toId = rootId ∧ findNode nodes c.fromId = some n) := by
  intro cs
  induction cs with
  | nil =>
    intro n
    simp [level1Nodes]
  | cons c cs ih =>
    intro n
    by_cases h1 : c.fromId = rootId
    · cases hfn : findNode nodes c.toId with
      | none =>
        rw [level1_cons_from_none nodes rootId c cs h1 hfn]
        constructor
        · intro hn
          obtain ⟨c2, hc2, hcase⟩ := (ih n).mp hn
          exact ⟨c2, List.mem_cons_of_mem _ hc2, hcase⟩
        · rintro ⟨c2, hc2, hcase⟩
          rcases List.mem_cons.mp hc2 with rfl | hc2
          · rcases hcase with ⟨-, hsome⟩ | ⟨hneg, -, -⟩
            · rw [hfn] at hsome
              exact absurd hsome (by simp)
            · exact absurd h1 hneg
          · exact (ih n).mpr ⟨c2, hc2, hcase⟩
      | some t =>
        rw [level1_cons_from_some nodes rootId c cs t h1 hfn]
        constructor
        · intro hn
          rcases List.mem_cons.mp hn with rfl | hn
          · exact ⟨c, List.mem_cons_self _ _, Or.inl ⟨h1, hfn⟩⟩
          · obtain ⟨c2, hc2, hcase⟩ := (ih n).mp hn
            exact ⟨c2, List.mem_cons_of_mem _ hc2, hcase⟩
        · rintro ⟨c2, hc2, hcase⟩
          rcases List.mem_cons.mp hc2 with rfl | hc2
          · rcases hcase with ⟨-, hsome⟩ | ⟨hneg, -, -⟩
            · rw [hfn] at hsome
              exact List.mem_cons.mpr (Or.inl (Option.some.inj hsome).symm)
            · exact absurd h1 hneg
          · exact List.mem_cons_of_mem _ ((ih n).mpr ⟨c2, hc2, hcase⟩)
    · by_cases h2 : c.toId = rootId
      · cases hfn : findNode nodes c.fromId with
        | none =>
          rw [level1_cons_to_none nodes rootId c cs h1 h2 hfn]
          constructor
          · intro hn
            obtain ⟨c2, hc2, hcase⟩ := (ih n).mp hn
            exact ⟨c2, List.mem_cons_of_mem _ hc2, hcase⟩
          · rintro ⟨c2, hc2, hcase⟩
            rcases List.mem_cons.mp hc2 with rfl | hc2
            · rcases hcase with ⟨hpos, -⟩ | ⟨-, -, hsome⟩
              · exact absurd hpos h1
              · rw [hfn] at hsome
                exact absurd hsome (by simp)
            · exact (ih n).mpr ⟨c2, hc2, hcase⟩
        | some t =>
          rw [level1_cons_to_some nodes rootId c cs t h1 h2 hfn]
          constructor
          · intro hn
            rcases List.mem_cons.mp hn with rfl | hn
            · exact ⟨c, List.mem_cons_self _ _, Or.inr ⟨h1, h2, hfn⟩⟩
            · obtain ⟨c2, hc2, hcase⟩ := (ih n).mp hn
              exact ⟨c2, List.mem_cons_of_mem _ hc2, hcase⟩
          · rintro ⟨c2, hc2, hcase⟩
            rcases List.mem_cons.mp hc2 with rfl | hc2
            · rcases hcase with ⟨hpos, -⟩ | ⟨-, -, hsome⟩
              · exact absurd hpos h1
              · rw [hfn] at hsome
                exact List.mem_cons.mpr (Or.inl (Option.some.inj hsome).symm)
            · exact List.mem_cons_of_mem _ ((ih n).mpr ⟨c2, hc2, hcase⟩)
      · rw [level1_cons_skip nodes rootId c cs h1 h2]
        constructor
        · intro hn
          obtain ⟨c2, hc2, hcase⟩ := (ih n).mp hn
          exact ⟨c2, List.mem_cons_of_mem _ hc2, hcase⟩
        · rintro ⟨c2, hc2, hcase⟩
          rcases List.mem_cons.mp hc2 with rfl | hc2
          · rcases hcase with ⟨hpos, -⟩ | ⟨-, hpos, -⟩
            · exact absurd hpos h1
            · exact absurd hpos h2
          · exact (ih n).mpr ⟨c2, hc2, hcase⟩

theorem adjB_iff (connectors : List Connector) (n : Node) (k : String) :
    adjB connectors n k = true ↔ AdjVia connectors n.id k := by
  unfold adjB AdjVia
  simp [List.any_eq_true]

theorem bfsLoopSeen_zero (nodes : List Node) (connectors : List Connector)
    (st : BfsState) (seen : List Node) :
    bfsLoopSeen nodes connectors 0 st seen = (st, seen) := rfl

theorem bfsLoopSeen_succ_eq (nodes : List Node) (connectors : List Connector)
    (fuel : Nat) (st : BfsState) (seen : List Node) :
    bfsLoopSeen nodes connectors (fuel + 1) st seen =
      match st.queue with
      | [] => (st, seen)
      | parent :: rest =>
        bfsLoopSeen nodes connectors fuel
          (processConns nodes parent.id (st.colors parent.id)
            { st with queue := rest } connectors) (seen ++ [parent]) := rfl

theorem bfsLoopSeen_succ_nil (nodes : List Node) (connectors : List Connector)
    (fuel : Nat) (st : BfsState) (seen : List Node) (h : st.queue = []) :
    bfsLoopSeen nodes connectors (fuel + 1) st seen = (st, seen) := by
  rw [bfsLoopSeen_succ_eq, h]

theorem bfsLoopSeen_succ_cons (nodes : List Node) (connectors : List Connector)
    (fuel : Nat) (st : BfsState) (seen : List Node) (parent : Node) (rest : List Node)
    (h : st.queue = parent :: rest) :
    bfsLoopSeen nodes connectors (fuel + 1) st seen =
      bfsLoopSeen nodes connectors fuel
        (processConns nodes parent.id (st.colors parent.id)
          { st with queue := rest } connectors) (seen ++ [parent]) := by
  rw [bfsLoopSeen_succ_eq, h]

theorem bfsLoopSeen_fst (nodes : List Node) (connectors : List Connector) :
    ∀ fuel st seen, (bfsLoopSeen nodes connectors fuel st seen).1
      = bfsLoop nodes connectors fuel st := by
  intro fuel
  induction fuel with
  | zero => intro st seen; rfl
  | succ fuel ih =>
    intro st seen
    cases hq : st.queue with
    | nil =>
      rw [bfsLoopSeen_succ_nil _ _ _ _ _ hq, bfsLoop_succ_nil _ _ _ _ hq]
    | cons parent rest =>
      rw [bfsLoopSeen_succ_cons _ _ _ _ _ _ _ hq, bfsLoop_succ_cons _ _ _ _ _ _ hq]
      exact ih _ _

theorem ordInv_step (connectors : List Connector) (nodes : List Node) (rootId : String)
    (l1ids : List String) (st : BfsState) (parent : Node) (rest : List Node)
    (seen : List Node) (hq : st.queue = parent :: rest)
    (hinv : BfsInv connectors nodes rootId l1ids st)
    (hord : OrdInv connectors nodes l1ids st seen) :
    OrdInv connectors nodes l1ids
      (processConns nodes parent.id (st.colors parent.id)
        { st with queue := rest } connectors)
      (seen ++ [parent]) := by
  obtain ⟨i1, -, -, -, -, -, -, -, -⟩ := hinv
  obtain ⟨o1, o2, o3⟩ := hord
  have hpq : parent ∈ st.queue := by rw [hq]; exact List.mem_cons_self _ _
  have hparent : parent.id ∈ st.processed := i1 parent hpq
  refine ⟨?_, ?_, ?_⟩
  · intro j hj
    rcases List.mem_append.mp hj with hj | hj
    · exact processConns_processed_mono _ _ _ _ _ _ (o1 j hj)
    · have hje : j = parent := List.mem_singleton.mp hj
      subst hje
      exact processConns_processed_mono _ _ _ _ _ _ hparent
  · intro j hj x hadj hres
    rcases List.mem_append.mp hj with hj | hj
    · exact processConns_processed_mono _ _ _ _ _ _ (o2 j hj x hadj hres)
    · have hje : j = parent := List.mem_singleton.mp hj
      rw [hje] at hadj
      exact processConns_closure nodes parent.id (st.colors parent.id) connectors
        { st with queue := rest } hparent x hadj hres
  · intro k hck
    rcases processConns_colors_cases nodes parent.id (st.colors parent.id) connectors
      { st with queue := rest } k with hstable | ⟨h1, h2, h3, h4⟩
    · rw [hstable] at hck ⊢
      rcases o3 k hck with hl | ⟨j, hfind, hcolj⟩
      · exact Or.inl hl
      · refine Or.inr ⟨j, ?_, ?_⟩
        · rw [List.find?_append, hfind]
          rfl
        · have hjp : j.id ∈ st.processed := o1 j (List.mem_of_find?_eq_some hfind)
          rw [processConns_colors_stable nodes parent.id (st.colors parent.id) connectors
            { st with queue := rest } j.id hjp]
          exact hcolj
    · have h3' : k ∉ st.processed := h3
      have hres : Resolvable nodes k := by
        rcases processConns_processed_new nodes parent.id (st.colors parent.id) connectors
          { st with queue := rest } k h4 with hmem | ⟨-, hres, -, -⟩
        · exact absurd hmem h3'
        · exact hres
      have hnone : seen.find? (fun n => adjB connectors n k) = none := by
        rw [List.find?_eq_none]
        intro j hj hadjb
        exact h3' (o2 j hj k ((adjB_iff connectors j k).mp hadjb) hres)
      refine Or.inr ⟨parent, ?_, ?_⟩
      · rw [List.find?_append, hnone]
        show List.find? (fun n => adjB connectors n k) [parent] = some parent
        exact findq_cons_pos _ parent [] ((adjB_iff connectors parent k).mpr h2)
      · rw [h1]
        rw [processConns_colors_stable nodes parent.id (st.colors parent.id) connectors
          { st with queue := rest } parent.id hparent]

theorem bfsLoopSeen_inv (connectors : List Connector) (nodes : List Node) (rootId : String)
    (l1ids : List String) :
    ∀ fuel st seen, BfsInv connectors nodes rootId l1ids st →
      OrdInv connectors nodes l1ids st seen →
      OrdInv connectors nodes l1ids (bfsLoopSeen nodes connectors fuel st seen).1
        (bfsLoopSeen nodes connectors fuel st seen).2 := by
  intro fuel
  induction fuel with
  | zero => intro st seen _ ho; exact ho
  | succ fuel ih =>
    intro st seen hb ho
    cases hq : st.queue with
    | nil =>
      rw [bfsLoopSeen_succ_nil _ _ _ _ _ hq]
      exact ho
    | cons parent rest =>
      rw [bfsLoopSeen_succ_cons _ _ _ _ _ _ _ hq]
      exact ih _ _ (bfsInv_step connectors nodes rootId l1ids st parent rest hq hb)
        (ordInv_step connectors nodes rootId l1ids st parent rest seen hq hb ho)

theorem ordInv_initial (connectors : List Connector) (nodes : List Node) (root : Node) :
    OrdInv connectors nodes ((level1Nodes nodes root.id connectors).map Node.id)
      { colors := (assignPalette (fun _ => none) [root.id] 0
          (level1Nodes nodes root.id connectors)).1,
        processed := (assignPalette (fun _ => none) [root.id] 0
          (level1Nodes nodes root.id connectors)).2,
        queue := level1Nodes nodes root.id connectors } [] := by
  unfold OrdInv
  dsimp only
  refine ⟨?_, ?_, ?_⟩
  · intro j hj
    exact absurd hj (List.not_mem_nil j)
  · intro j hj
    exact absurd hj (List.not_mem_nil j)
  · intro k hck
    by_cases hk1 : k ∈ (level1Nodes nodes root.id connectors).map Node.id
    · exact Or.inl hk1
    · rw [assignPalette_untouched _ _ _ _ k hk1] at hck
      exact absurd rfl hck

/-- C4 (amended): for a mind-map diagram with at least one node — whose
selected root has no self-loop connector and whose connectors incident to
the root contribute pairwise-distinct level-1 nodes — the code's root is
exactly the spec's root (closest center to the canvas center, ties by
first occurrence, distances compared via their squares); the color map is
defined; the level-1 nodes are exactly the resolvable other endpoints of
the connectors touching the root, in connector order; the root receives
no color; the i-th level-1 node receives `palette[i mod palette.length]`;
every further colored node receives exactly the color of the neighbor
from which the BFS first reaches it — the first node, in the BFS dequeue
order, adjacent to it (the instrumented run `nodeColorMapSeen`, whose
state is proved equal to `nodeColorMapRun`, records that order); every
node reachable from the root is colored (root apart); uncolored nodes are
exactly the ones not reached; and the BFS halts with an empty queue (each
node being colored at most once). -/
theorem mindmap_color_propagation (data : FlowchartData) (root : Node)
    (hroot : findRoot (data.canvas.width / 2) (data.canvas.height / 2) data.nodes
      = some root)
    (hself : root.id ∉ (level1Nodes data.nodes root.id data.connectors).map Node.id)
    (hnodup : ((level1Nodes data.nodes root.id data.connectors).map Node.id).Nodup) :
    findRoot (data.canvas.width / 2) (data.canvas.height / 2) data.nodes
      = specRoot (data.canvas.width / 2) (data.canvas.height / 2) data.nodes ∧
    nodeColorMap DiagramType.MINDMAP data = some (nodeColorMapRun data root).colors ∧
    (∀ n, n ∈ level1Nodes data.nodes root.id data.connectors ↔
      ∃ c ∈ data.connectors,
        (c.fromId = root.id ∧ findNode data.nodes c.toId = some n) ∨
        (¬ c.fromId = root.id ∧ c.toId = root.id ∧
          findNode data.nodes c.fromId = some n)) ∧
    (nodeColorMapRun data root).colors root.id = none ∧
    (∀ i (h1 : i < (level1Nodes data.nodes root.id data.connectors).length),
      (nodeColorMapRun data root).colors
          ((level1Nodes data.nodes root.id data.connectors).get ⟨i, h1⟩).id
        = some (MIND_MAP_PALETTE.getD (i % MIND_MAP_PALETTE.length) "")) ∧
    ((nodeColorMapSeen data root).1 = nodeColorMapRun data root ∧
      ∀ k, (nodeColorMapRun data root).colors k ≠ none →
        k ∈ (level1Nodes data.nodes root.id data.connectors).map Node.id ∨
        ∃ j, (nodeColorMapSeen data root).2.find?
              (fun n => adjB data.connectors n k) = some j ∧
          AdjVia data.connectors j.id k ∧
          (nodeColorMapRun data root).colors k
            = (nodeColorMapRun data root).colors j.id) ∧
    (∀ n ∈ data.nodes, Reaches data.connectors data.nodes root.id n.id →
      n.id = root.id ∨ (nodeColorMapRun data root).colors n.id ≠ none) ∧
    (∀ k, (nodeColorMapRun data root).colors k ≠ none →
      Reaches data.connectors data.nodes root.id k) ∧
    (nodeColorMapRun data root).queue = [] := by
  have hrun : nodeColorMapRun data root = bfsLoop data.nodes data.connectors
      ((level1Nodes data.nodes root.id data.connectors).length + data.nodes.length)
      { colors := (assignPalette (fun _ => none) [root.id] 0
          (level1Nodes data.nodes root.id data.connectors)).1,
        processed := (assignPalette (fun _ => none) [root.id] 0
          (level1Nodes data.nodes root.id data.connectors)).2,
        queue := level1Nodes data.nodes root.id data.connectors } := rfl
  have hinv0 := bfsInv_initial data.connectors data.nodes root hself
  have hinvF := bfsLoop_inv data.connectors data.nodes root.id
    ((level1Nodes data.nodes root.id data.connectors).map Node.id)
    ((level1Nodes data.nodes root.id data.connectors).length + data.nodes.length)
    _ hinv0
  rw [← hrun] at hinvF
  unfold BfsInv at hinvF
  obtain ⟨f1, f2, f3, f4, f5, f6, f7, f8, f9⟩ := hinvF
  have hhalts : (nodeColorMapRun data root).queue = [] := by
    rw [hrun]
    apply bfsLoop_halts
    have h1 := unproc_le data.nodes (assignPalette (fun _ => none) [root.id] 0
      (level1Nodes data.nodes root.id data.connectors)).2
    dsimp only
    omega
  have key : ∀ x, Reaches data.connectors data.nodes root.id x →
      x ∈ (nodeColorMapRun data root).processed := by
    intro x hr
    induction hr with
    | refl => exact f2
    | tail h1 h2 ih => exact f6 _ ih (by rw [hhalts]; simp) _ h2.1 h2.2
  have hseen1 : (nodeColorMapSeen data root).1 = nodeColorMapRun data root := by
    rw [hrun]
    exact bfsLoopSeen_fst data.nodes data.connectors _ _ _
  have hordF : OrdInv data.connectors data.nodes
      ((level1Nodes data.nodes root.id data.connectors).map Node.id)
      (nodeColorMapSeen data root).1 (nodeColorMapSeen data root).2 :=
    bfsLoopSeen_inv data.connectors data.nodes root.id
      ((level1Nodes data.nodes root.id data.connectors).map Node.id)
      ((level1Nodes data.nodes root.id data.connectors).length + data.nodes.length)
      { colors := (assignPalette (fun _ => none) [root.id] 0
          (level1Nodes data.nodes root.id data.connectors)).1,
        processed := (assignPalette (fun _ => none) [root.id] 0
          (level1Nodes data.nodes root.id data.connectors)).2,
        queue := level1Nodes data.nodes root.id data.connectors } []
      hinv0 (ordInv_initial data.connectors data.nodes root)
  rw [hseen1] at hordF
  refine ⟨findRoot_eq_specRoot _ _ _, ?_, level1_mem_iff data.nodes root.id data.connectors,
    f4, ?_, ?_, ?_, ?_, hhalts⟩
  · unfold nodeColorMap
    rw [if_neg (by simp), hroot]
  · intro i h1
    have hget : (level1Nodes data.nodes root.id data.connectors).get ⟨i, h1⟩
        ∈ level1Nodes data.nodes root.id data.connectors := List.get_mem _ _ _
    have hmem : ((level1Nodes data.nodes root.id data.connectors).get ⟨i, h1⟩).id
        ∈ (assignPalette (fun _ => none) [root.id] 0
          (level1Nodes data.nodes root.id data.connectors)).2 := by
      rw [assignPalette_processed]
      simp only [List.mem_append, List.mem_reverse]
      exact Or.inl (List.mem_map_of_mem _ hget)
    rw [hrun, (bfsLoop_stable data.nodes data.connectors _ _ _ hmem).1]
    dsimp only
    rw [assignPalette_values (level1Nodes data.nodes root.id data.connectors)
      (fun _ => none) [root.id] 0 hnodup i h1]
    simp
  · refine ⟨hseen1, ?_⟩
    intro k hck
    rcases hordF.2.2 k hck with hl | ⟨j, hfind, hcolj⟩
    · exact Or.inl hl
    · have hpj := List.find?_some hfind
      exact Or.inr ⟨j, hfind, (adjB_iff data.connectors j k).mp hpj, hcolj⟩
  · intro n hn hreach
    by_cases hnr : n.id = root.id
    · exact Or.inl hnr
    · exact Or.inr (f5 n.id (key n.id hreach) hnr)
  · intro k hck
    exact f9 k (f7 k hck)

/-- C4 counterexample: in the mind-map diagram `dataCex` the selected
root `R` carries a self-loop connector, and the code assigns it
`palette[0]` — the claim says the root receives no color.  Moreover `A`,
joined to the root by two connectors (indices 1 and 2), ends with
`palette[2]`, not the color of its first level-1 occurrence. -/
theorem mindmap_colors_cex :
    findRoot (dataCex.canvas.width / 2) (dataCex.canvas.height / 2) dataCex.nodes
      = some rCex ∧
    nodeColorMap DiagramType.MINDMAP dataCex
      = some (nodeColorMapRun dataCex rCex).colors ∧
    (nodeColorMapRun dataCex rCex).colors rCex.id = some "#ef4444" ∧
    (nodeColorMapRun dataCex rCex).colors "A" = some "#f59e0b" := by
  have hroot : findRoot (dataCex.canvas.width / 2) (dataCex.canvas.height / 2)
      dataCex.nodes = some rCex := by
    norm_num [dataCex, mkDiagram, rCex, mkNode, findRoot, rootScan_cons_eq, rootScan_nil,
      dist2]
  refine ⟨hroot, ?_, rfl, rfl⟩
  unfold nodeColorMap
  rw [if_neg (by simp), hroot]

/-- Witness for C4 (amended): Scenario B.  The root `R` (center on the
canvas center) is uncolored, the level-1 nodes `A`, `B`, `C` receive the
first three palette colors in connector order, the BFS dequeues `A`, `B`,
`C`, `A1` in that order, the first dequeued node adjacent to `A1` is `A`
and `A1` inherits `A`'s color, and the BFS halts. -/
theorem mindmap_color_propagation_witness :
    findRoot (dataB.canvas.width / 2) (dataB.canvas.height / 2) dataB.nodes = some rB ∧
    rB.id ∉ (level1Nodes dataB.nodes rB.id dataB.connectors).map Node.id ∧
    ((level1Nodes dataB.nodes rB.id dataB.connectors).map Node.id).Nodup ∧
    (nodeColorMapRun dataB rB).colors rB.id = none ∧
    (nodeColorMapRun dataB rB).queue = [] ∧
    (nodeColorMapRun dataB rB).colors "A" = some "#ef4444" ∧
    (nodeColorMapRun dataB rB).colors "B" = some "#f97316" ∧
    (nodeColorMapRun dataB rB).colors "C" = some "#f59e0b" ∧
    (nodeColorMapRun dataB rB).colors "A1" = (nodeColorMapRun dataB rB).colors "A" ∧
    (nodeColorMapSeen dataB rB).2.map Node.id = ["A", "B", "C", "A1"] ∧
    ((nodeColorMapSeen dataB rB).2.find?
        (fun n => adjB dataB.connectors n "A1")).map Node.id = some "A" := by
  have hroot : findRoot (dataB.canvas.width / 2) (dataB.canvas.height / 2) dataB.nodes
      = some rB := by
    norm_num [dataB, mkDiagram, rB, mkNode, findRoot, rootScan_cons_eq, rootScan_nil, dist2]
  have hself : rB.id ∉ (level1Nodes dataB.nodes rB.id dataB.connectors).map Node.id := by
    decide
  have hnodup : ((level1Nodes dataB.nodes rB.id dataB.connectors).map Node.id).Nodup := by
    decide
  have h := mindmap_color_propagation dataB rB hroot hself hnodup
  exact ⟨hroot, hself, hnodup, h.2.2.2.1, h.2.2.2.2.2.2.2.2, rfl, rfl, rfl, rfl, rfl, rfl⟩

end AiMaker
